import Mathlib

/-!
# Imgliex: a verification development for `src/main.cpp`

The C++ program reads a chapter listing, downloads one page per chapter,
extracts image links with two regular expressions, writes them to
`<folder>/chapter-<n>/base.txt` and skips chapters whose file already has the
expected number of lines.

Embedding conventions.

* `std::string` is `Str`, a list of characters (bytes).
* `std::unordered_map<int, T>` is a function `Int → Option T`.
* The file system is seen through `ImgLiex.files` (content of
  `chapter-n/base.txt`, if it exists) and `ImgLiex.writable` (whether
  `std::ofstream` can open that file for writing). A file that exists can be
  opened for reading.
* The network is a function `Net` from a URL to the body, or `none` when
  libcurl reports an error.
* C++ exceptions are explicit: fallible functions return `Except Exn _`.
* `std::async` tasks take effect, in launch order, when their future is waited
  for. Tasks of distinct chapters touch distinct files and distinct cache keys
  and bump counters under `statsMutex`; `processChapter_comm` shows that two
  such tasks give the same files, cache and counters in either order.
* The network is deterministic within a run: a URL has one answer.
* Chapter numbers are `Int`. The loop counter of `processChapters` is a C++
  `int`; incrementing it past `INT_MAX` is undefined behaviour and is outside
  the embedding.
-/

set_option autoImplicit false

namespace Imgliex

/-- Byte strings, the embedding of `std::string`. -/
abbrev Str := List Char

/-- The double quote character. -/
def dq : Char := Char.ofNat 34

/-- The single quote character. -/
def sq : Char := Char.ofNat 39

/-- The line feed character. -/
def lf : Char := Char.ofNat 10

/-! ## Regular expressions (the fragment of ECMAScript used by the program) -/

/-- One-character matchers: a literal, a bracket expression, a negated
bracket expression, and the class of decimal digits. -/
inductive Atom where
  | chr (c : Char)
  | anyOf (cs : List Char)
  | noneOf (cs : List Char)
  | digit
  deriving DecidableEq

/-- Whether an atom accepts a character. -/
def Atom.test : Atom → Char → Bool
  | .chr c, x => x == c
  | .anyOf cs, x => cs.contains x
  | .noneOf cs, x => !cs.contains x
  | .digit, x => x.isDigit

/-- Regex nodes: a single atom, a greedy `atom*`, and the capture group
`(atom+)` (greedy). -/
inductive Node where
  | one (a : Atom)
  | star (a : Atom)
  | group (a : Atom)
  deriving DecidableEq

/-- A regular expression is a concatenation of nodes. -/
abbrev Regex := List Node

/-- The nodes of a literal string. -/
def lits (s : String) : Regex := s.toList.map (fun c => Node.one (Atom.chr c))

/-- Greedy `a*` with backtracking: take as many characters as possible, and
give characters back one at a time while the continuation fails. -/
def runStar {R : Type} (a : Atom) (k : Str → Option R) : Str → Option R
  | [] => k []
  | c :: s =>
    if a.test c then
      match runStar a k s with
      | some r => some r
      | none => k (c :: s)
    else k (c :: s)

/-- Greedy tail of a capture group: `acc` is what the group has taken so
far. -/
def runGroup {R : Type} (a : Atom) (k : Str → Str → Option R) : Str → Str → Option R
  | acc, [] => k acc []
  | acc, c :: s =>
    if a.test c then
      match runGroup a k (acc ++ [c]) s with
      | some r => some r
      | none => k acc (c :: s)
    else k acc (c :: s)

/-- Backtracking match of a regex at the start of the input; the result is the
text of capture group 1 and the input left after the match. -/
def matchHere : Regex → Str → Str → Option (Str × Str)
  | [], cap, s => some (cap, s)
  | Node.one _ :: _, _, [] => none
  | Node.one a :: re, cap, c :: s => if a.test c then matchHere re cap s else none
  | Node.star a :: re, cap, s => runStar a (fun s1 => matchHere re cap s1) s
  | Node.group _ :: _, _, [] => none
  | Node.group a :: re, _, c :: s =>
    if a.test c then runGroup a (fun cap1 s1 => matchHere re cap1 s1) [c] s else none

/-- The leftmost match, as `std::regex_search` finds it: capture group 1 and
the rest of the input. -/
def regexSearch (re : Regex) : Str → Option (Str × Str)
  | [] => matchHere re [] []
  | c :: s =>
    match matchHere re [] (c :: s) with
    | some r => some r
    | none => regexSearch re s

/-- The captures of all successive matches, as a `std::sregex_iterator` loop
collects them: after a match the search resumes where the match ended. `skip`
counts the characters still covered by the previous match. (Both patterns of
the program need at least one character, so no match is empty.) -/
def allCaptures (re : Regex) : Nat → Str → List Str
  | _, [] => []
  | skip + 1, _ :: s => allCaptures re skip s
  | 0, c :: s =>
    match matchHere re [] (c :: s) with
    | some (cap, rest) => cap :: allCaptures re (s.length - rest.length) s
    | none => allCaptures re 0 s

/-- The bracket expression of both quote characters. -/
def quote : Node := Node.one (Atom.anyOf [dq, sq])

/-- The first pattern of `extractImageLinks`: `class` before `src`. -/
def imgRegex : Regex :=
  lits "<img" ++ [Node.star (Atom.noneOf ['>'])] ++ lits "class=" ++ [quote] ++
  lits "imgholder" ++ [quote] ++ [Node.star (Atom.noneOf ['>'])] ++ lits "src=" ++ [quote] ++
  [Node.group (Atom.noneOf [dq, sq])] ++ [quote] ++ [Node.star (Atom.noneOf ['>'])] ++ lits ">"

/-- The second pattern of `extractImageLinks`: `src` before `class`. -/
def imgRegex2 : Regex :=
  lits "<img" ++ [Node.star (Atom.noneOf ['>'])] ++ lits "src=" ++ [quote] ++
  [Node.group (Atom.noneOf [dq, sq])] ++ [quote] ++ [Node.star (Atom.noneOf ['>'])] ++
  lits "class=" ++ [quote] ++ lits "imgholder" ++ [quote] ++
  [Node.star (Atom.noneOf ['>'])] ++ lits ">"

/-- The pattern of `extractChapterLinks`: the marker, a blank and a captured
run of digits. -/
def chapterRegex : Regex := lits "# Chapter " ++ [Node.group Atom.digit]

/-- The loop `for (i = start; i != end; ++i) imageLinks.push_back(match[1])`. -/
def pushAll (imageLinks : List Str) (caps : List Str) : List Str :=
  caps.foldl (fun acc cap => acc ++ [cap]) imageLinks

/-- The function `extractImageLinks`: all captures of the first pattern; only
when there is none, all captures of the second pattern. -/
def extractImageLinks (htmlContent : Str) : List Str :=
  let imageLinks := pushAll [] (allCaptures imgRegex 0 htmlContent)
  if imageLinks.isEmpty then
    pushAll imageLinks (allCaptures imgRegex2 0 htmlContent)
  else imageLinks

/-! ## Lines of a file -/

/-- The lines that successive `std::getline` calls return: `cur` is the line
being read. At the end of the input a last line without a line feed is
returned when it holds at least one character. -/
def getlinesAux : Str → Str → List Str
  | [], cur => if cur.isEmpty then [] else [cur]
  | c :: s, cur => if c == lf then cur :: getlinesAux s [] else getlinesAux s (cur ++ [c])

/-- All lines of a text, as a `while (std::getline(file, line))` loop sees
them. -/
def getlines (text : Str) : List Str := getlinesAux text []

/-! ## The chapter listing -/

/-- The exceptions the program throws: the `std::runtime_error` of
`downloadHTML`, the one of `saveImageLinks`, and the `std::out_of_range` of
`std::stoi`. -/
inductive Exn where
  | curlError
  | cannotCreateBase (chapterNum : Int)
  | stoiOutOfRange
  deriving DecidableEq

/-- The largest value of a C++ `int`. -/
def INT_MAX : Int := 2147483647

/-- The value of a run of decimal digits. -/
def digitsValue (digits : Str) : Nat :=
  digits.foldl (fun acc c => 10 * acc + (c.toNat - 48)) 0

/-- The call `std::stoi` on a run of digits: the value, or `std::out_of_range`
when it does not fit an `int`. -/
def stoi (digits : Str) : Except Exn Int :=
  if (digitsValue digits : Int) ≤ INT_MAX then Except.ok (digitsValue digits)
  else Except.error Exn.stoiOutOfRange

/-- The characters removed by the trimming of `extractChapterLinks`. -/
def isTrimChar (c : Char) : Bool :=
  c == ' ' || c == Char.ofNat 9 || c == Char.ofNat 13 || c == lf

/-- The two `erase` calls: drop leading, then trailing, blanks. -/
def trim (line : Str) : Str :=
  ((line.dropWhile isTrimChar).reverse.dropWhile isTrimChar).reverse

/-- The test `line.find("# Chapter") == 0`. -/
def startsWithMarker (line : Str) : Bool := "# Chapter".toList.isPrefixOf line

/-- The digits of a marker line: the line starts with the marker and
`std::regex_search` finds the chapter pattern in it. -/
def markerDigits (line : Str) : Option Str :=
  if startsWithMarker line then (regexSearch chapterRegex line).map Prod.fst else none

/-- The reading loop of `extractChapterLinks` over the lines of the file. A
marker line is converted with `std::stoi` (which may throw), and the line
after it, when there is one, is consumed as the URL. -/
def loadLoop : List Str → (Int → Option Str) → Except Exn (Int → Option Str)
  | [], chapterLinks => Except.ok chapterLinks
  | [line], chapterLinks =>
    match markerDigits line with
    | none => Except.ok chapterLinks
    | some digits =>
      match stoi digits with
      | Except.error e => Except.error e
      | Except.ok _ => Except.ok chapterLinks
  | line :: url :: rest, chapterLinks =>
    match markerDigits line with
    | none => loadLoop (url :: rest) chapterLinks
    | some digits =>
      match stoi digits with
      | Except.error e => Except.error e
      | Except.ok chapterNum => loadLoop rest (Function.update chapterLinks chapterNum (some (trim url)))

/-! ## The object state and the per-chapter pipeline -/

/-- The line `processChapter` prints for a chapter: `[OK]`, `[SKIP]` or
`[FAIL]`. -/
inductive Outcome where
  | ok (images : Nat)
  | skip (images : Nat)
  | fail (what : Exn)
  deriving DecidableEq

/-- The network: the body `downloadHTML` gets for a URL, or `none` when
libcurl fails. -/
abbrev Net := Str → Option Str

/-- The members of `class ImgLiex`, with the part of the world they act on:
the `base.txt` file of every chapter, whether it can be opened for writing,
and the outcome lines printed so far. -/
structure ImgLiex where
  chapterLinks : Int → Option Str
  expectedCountsCache : Int → Option Nat
  processedCount : Nat
  skippedCount : Nat
  errorCount : Nat
  files : Int → Option Str
  writable : Int → Bool
  console : List (Int × Outcome)

/-- A freshly constructed object over a given disk: no links, empty cache,
zero counters. -/
def ImgLiex.new (files : Int → Option Str) (writable : Int → Bool) : ImgLiex :=
  ⟨fun _ => none, fun _ => none, 0, 0, 0, files, writable, []⟩

/-- The function `extractChapterLinks`: `inputFile` is the content of the
file, or `none` when it cannot be opened. Returns the `bool` result and the
object, or the exception that escapes. -/
def extractChapterLinks (self : ImgLiex) (inputFile : Option Str) : Except Exn (Bool × ImgLiex) :=
  match inputFile with
  | none => Except.ok (false, self)
  | some text =>
    match loadLoop (getlines text) self.chapterLinks with
    | Except.error e => Except.error e
    | Except.ok links => Except.ok (true, { self with chapterLinks := links })

/-- The function `downloadHTML`. -/
def downloadHTML (net : Net) (url : Str) : Except Exn Str :=
  match net url with
  | some body => Except.ok body
  | none => Except.error Exn.curlError

/-- The bytes `saveImageLinks` streams into `base.txt`: every link followed
by a line feed. -/
def writeLinks (imageLinks : List Str) : Str :=
  imageLinks.foldl (fun out link => out ++ link ++ [lf]) []

/-- The function `saveImageLinks`: throws when `base.txt` cannot be opened,
otherwise replaces the file. -/
def saveImageLinks (self : ImgLiex) (chapterNum : Int) (imageLinks : List Str) :
    Except Exn ImgLiex :=
  if self.writable chapterNum then
    Except.ok { self with files := Function.update self.files chapterNum (some (writeLinks imageLinks)) }
  else Except.error (Exn.cannotCreateBase chapterNum)

/-- The function `countLinesfast` on the result of opening the file: 0 when
it cannot be opened, otherwise the number of `std::getline` successes. -/
def countLinesfast (file : Option Str) : Nat :=
  match file with
  | none => 0
  | some text => (getlines text).length

/-- The function `chapterAlreadyProcessed`. -/
def chapterAlreadyProcessed (self : ImgLiex) (chapterNum : Int) (expectedImgCount : Nat) : Bool :=
  match self.files chapterNum with
  | none => false
  | some text => countLinesfast (some text) == expectedImgCount

/-- Count and print a processed chapter. -/
def ImgLiex.reportOk (self : ImgLiex) (chapterNum : Int) (images : Nat) : ImgLiex :=
  { self with processedCount := self.processedCount + 1,
              console := self.console ++ [(chapterNum, Outcome.ok images)] }

/-- Count and print a skipped chapter. -/
def ImgLiex.reportSkip (self : ImgLiex) (chapterNum : Int) (images : Nat) : ImgLiex :=
  { self with skippedCount := self.skippedCount + 1,
              console := self.console ++ [(chapterNum, Outcome.skip images)] }

/-- The `catch` block of `processChapter`. -/
def ImgLiex.reportFail (self : ImgLiex) (chapterNum : Int) (what : Exn) : ImgLiex :=
  { self with errorCount := self.errorCount + 1,
              console := self.console ++ [(chapterNum, Outcome.fail what)] }

/-- The end of the `try` block of `processChapter`, from the comment
"Check if already processed" on. The result is the state reached and the
exception thrown, if any. -/
def processTail (net : Net) (self : ImgLiex) (chapterNum : Int) (url : Str)
    (expectedImgCount : Nat) : ImgLiex × Option Exn :=
  if chapterAlreadyProcessed self chapterNum expectedImgCount then
    (self.reportSkip chapterNum expectedImgCount, none)
  else
    match downloadHTML net url with
    | Except.error e => (self, some e)
    | Except.ok htmlContent =>
      let imageLinks := extractImageLinks htmlContent
      match saveImageLinks self chapterNum imageLinks with
      | Except.error e => (self, some e)
      | Except.ok saved => (saved.reportOk chapterNum imageLinks.length, none)

/-- The `try` block of `processChapter`. -/
def processTry (net : Net) (self : ImgLiex) (chapterNum : Int) (url : Str) :
    ImgLiex × Option Exn :=
  match self.expectedCountsCache chapterNum with
  | some expectedImgCount => processTail net self chapterNum url expectedImgCount
  | none =>
    match downloadHTML net url with
    | Except.error e => (self, some e)
    | Except.ok htmlContent =>
      let imageLinks := extractImageLinks htmlContent
      let expectedImgCount := imageLinks.length
      let cached : ImgLiex :=
        { self with expectedCountsCache :=
            Function.update self.expectedCountsCache chapterNum (some expectedImgCount) }
      if !chapterAlreadyProcessed cached chapterNum expectedImgCount then
        match saveImageLinks cached chapterNum imageLinks with
        | Except.error e => (cached, some e)
        | Except.ok saved => (saved.reportOk chapterNum expectedImgCount, none)
      else processTail net cached chapterNum url expectedImgCount

/-- The function `processChapter`: the `try` block, and the `catch` block
when it throws. -/
def processChapter (net : Net) (self : ImgLiex) (chapterNum : Int) (url : Str) : ImgLiex :=
  match processTry net self chapterNum url with
  | (after, none) => after
  | (after, some e) => after.reportFail chapterNum e

/-! ## The dispatch loop -/

/-- What the dispatch loop does to `futures`: a task is launched (with
`futures.size()` right after the `push_back`), or all futures are waited for
and the vector is emptied. -/
inductive SchedEvent where
  | launch (chapterNum : Int) (inFlight : Nat)
  | drain (batch : List Int)
  deriving DecidableEq

/-- The state of `processChapters` inside its loop: the object, the vector
`futures` (the chapter and URL of every task launched and not yet waited for),
the chapters reported as not found, and a record of every change of
`futures`. -/
structure Scheduler where
  self : ImgLiex
  futures : List (Int × Str)
  warnings : List Int
  trace : List SchedEvent

/-- The conversion `static_cast<size_t>(numThreads)` on a 64-bit target. -/
def toSizeT (i : Int) : Nat := (i % 2 ^ 64).toNat

/-- The chapter numbers `startChapter, ..., endChapter` the loop visits. -/
def chapterRange (startChapter endChapter : Int) : List Int :=
  (List.range (endChapter + 1 - startChapter).toNat).map (fun (i : Nat) => startChapter + (i : Int))

/-- The loop `for (auto& future : futures) future.wait();`: the tasks take
effect in launch order. -/
def runTasks (net : Net) (self : ImgLiex) (futures : List (Int × Str)) : ImgLiex :=
  futures.foldl (fun st task => processChapter net st task.1 task.2) self

/-- Wait for all futures and empty the vector. -/
def waitAll (net : Net) (s : Scheduler) : Scheduler :=
  { s with self := runTasks net s.self s.futures,
           futures := [],
           trace := s.trace ++ [SchedEvent.drain (s.futures.map Prod.fst)] }

/-- One iteration of the loop of `processChapters`. -/
def loopBody (net : Net) (numThreads : Int) (s : Scheduler) (chapterNum : Int) : Scheduler :=
  match s.self.chapterLinks chapterNum with
  | some url =>
    let pushed : Scheduler :=
      { s with futures := s.futures ++ [(chapterNum, url)],
               trace := s.trace ++ [SchedEvent.launch chapterNum (s.futures.length + 1)] }
    if toSizeT numThreads ≤ pushed.futures.length then waitAll net pushed else pushed
  | none => { s with warnings := s.warnings ++ [chapterNum] }

/-- The function `processChapters`: the loop, then the wait for the
remaining futures. -/
def processChapters (net : Net) (self : ImgLiex) (startChapter endChapter numThreads : Int) :
    Scheduler :=
  waitAll net ((chapterRange startChapter endChapter).foldl (loopBody net numThreads)
    ⟨self, [], [], []⟩)

/-- The thread count of `main`, from `std::thread::hardware_concurrency()`
(an `unsigned int` converted to `int`). -/
def mainNumThreads (hardwareConcurrency : Nat) : Int :=
  let asInt : Int :=
    if hardwareConcurrency % 2 ^ 32 < 2 ^ 31 then (hardwareConcurrency % 2 ^ 32 : Nat)
    else (hardwareConcurrency % 2 ^ 32 : Nat) - 2 ^ 32
  let numThreads := min 8 asInt
  if numThreads = 0 then 4 else numThreads

/-! ## Definitions used to state the properties -/

/-- Whether characters follow the last line feed (1) or not (0); `dflt` is the
answer for a text without characters. -/
def openTail (last : Option Char) (dflt : Nat) : Nat :=
  match last with
  | some c => if c = lf then 0 else 1
  | none => dflt

/-- Number of lines of a text, said without `std::getline`: one per line
feed, plus one when characters follow the last line feed. -/
def lineCount (text : Str) : Nat := text.count lf + openTail text.getLast? 0

/-- The text written for a list of links, by recursion on the list. -/
def linesText : List Str → Str
  | [] => []
  | link :: links => link ++ lf :: linesText links

/-- A page with one image whose `src` value holds a line feed. -/
def pageWithLineFeed : Str :=
  "<img class=".toList ++ [dq] ++ "imgholder".toList ++ [dq] ++ " src=".toList ++ [dq] ++
  ['a', lf, 'b'] ++ [dq] ++ ">".toList

/-- A listing whose chapter number does not fit a C++ `int`. -/
def listingLongDigits : Str :=
  "# Chapter 99999999999".toList ++ [lf] ++ "http://x/1".toList ++ [lf]

/-- A line that matches `# Chapter <integer>` in the words of the listing
format: the marker and a blank at the start of the line, then a non-empty run
of digits. The result is the integer. -/
def strictMarker (line : Str) : Option Nat :=
  if "# Chapter ".toList.isPrefixOf line then
    let digits := (line.drop 10).takeWhile Char.isDigit
    if digits.isEmpty then none else some (digitsValue digits)
  else none

/-- Whether the reading loop takes line `i` as a candidate marker line, that
is, line `i` is not consumed as the URL line of the marker line before it. -/
def outerRead : List Str → Nat → Bool
  | [], _ => false
  | _ :: _, 0 => true
  | [_], _ + 1 => false
  | line :: url :: rest, i + 1 =>
    if (markerDigits line).isSome then
      match i with
      | 0 => false
      | j + 1 => outerRead rest j
    else outerRead (url :: rest) i

/-- A listing in which a marker line directly follows a marker line. -/
def listingMarkerAfterMarker : Str :=
  "# Chapter 1".toList ++ [lf] ++ "# Chapter 2".toList ++ [lf] ++ "http://x/2".toList ++ [lf]

/-- The listing of the end-to-end example. -/
def listingTwoChapters : Str :=
  "# Chapter 1".toList ++ [lf] ++ "http://x/1".toList ++ [lf] ++
  "# Chapter 2".toList ++ [lf] ++ "http://x/2".toList ++ [lf]

/-- Whether an outcome line is `[OK]`. -/
def Outcome.isOk : Outcome → Bool
  | Outcome.ok _ => true
  | _ => false

/-- Whether an outcome line is `[SKIP]`. -/
def Outcome.isSkip : Outcome → Bool
  | Outcome.skip _ => true
  | _ => false

/-- Whether an outcome line is `[FAIL]`. -/
def Outcome.isFail : Outcome → Bool
  | Outcome.fail _ => true
  | _ => false

/-- The tasks the loop launches over a list of chapter numbers: one per number
present in the index, with its URL. -/
def presentTasks (chapterLinks : Int → Option Str) (chapters : List Int) : List (Int × Str) :=
  chapters.filterMap (fun n => (chapterLinks n).map (fun url => (n, url)))

/-- The chapter numbers of `[startChapter, endChapter]` present in the
index. -/
def indexedInRange (chapterLinks : Int → Option Str) (startChapter endChapter : Int) :
    List Int :=
  (chapterRange startChapter endChapter).filter (fun n => (chapterLinks n).isSome)

/-- The outcome line and the resulting `base.txt` of a chapter processed with
an empty cache, from its URL, its file and whether the file can be written. -/
def freshOutcome (net : Net) (n : Int) (url : Str) (file : Option Str) (w : Bool) :
    Outcome × Option Str :=
  match net url with
  | none => (Outcome.fail Exn.curlError, file)
  | some html =>
    let links := extractImageLinks html
    match file with
    | none =>
      if w then (Outcome.ok links.length, some (writeLinks links))
      else (Outcome.fail (Exn.cannotCreateBase n), file)
    | some text =>
      if countLinesfast (some text) = links.length then (Outcome.skip links.length, file)
      else if w then (Outcome.ok links.length, some (writeLinks links))
      else (Outcome.fail (Exn.cannotCreateBase n), file)

/-- An index with the two chapters 5 and 7. -/
def indexFiveSeven : Int → Option Str :=
  Function.update (Function.update (fun _ => none) 5 (some "http://x/5".toList)) 7
    (some "http://x/7".toList)

/-- The launch events of a batch, numbered from `i`: the `j`-th chapter of the
batch is launched with `i + j + 1` futures in flight. -/
def launchesFrom : Nat → List Int → List SchedEvent
  | _, [] => []
  | i, n :: ns => SchedEvent.launch n (i + 1) :: launchesFrom (i + 1) ns

/-- The events of a sequence of batches: every batch is launched chapter by
chapter and then waited for as a whole, before the next batch starts. -/
def batchEvents : List (List Int) → List SchedEvent
  | [] => []
  | b :: bs => launchesFrom 0 b ++ [SchedEvent.drain b] ++ batchEvents bs

/-- The chapters launched in a trace, in launch order. -/
def launched : List SchedEvent → List Int
  | [] => []
  | SchedEvent.launch n _ :: es => n :: launched es
  | SchedEvent.drain _ :: es => launched es

/-- An index with the chapters 1, 2 and 4. -/
def indexOneTwoFour : Int → Option Str :=
  Function.update (Function.update (Function.update (fun _ => none) 1
    (some "http://x/1".toList)) 2 (some "http://x/2".toList)) 4 (some "http://x/4".toList)

/-- The object with the chapters 1, 2 and 4 loaded, over an empty disk. -/
def loadedOneTwoFour : ImgLiex :=
  { ImgLiex.new (fun _ => none) (fun _ => true) with chapterLinks := indexOneTwoFour }

/-- The index with the single chapter 1. -/
def indexOne : Int → Option Str :=
  Function.update (fun _ => none) 1 (some "http://x/1".toList)

/-- An image element with `class` before `src`, as the first pattern wants
it. -/
def imgTag (src : String) : Str :=
  "<img class=".toList ++ [dq] ++ "imgholder".toList ++ [dq] ++ " src=".toList ++ [dq] ++
  src.toList ++ [dq] ++ ">".toList

/-- A page with three matching image elements. -/
def pageThreeImages : Str := imgTag "a1" ++ imgTag "a2" ++ imgTag "a3"

/-- The index of the end-to-end example. -/
def indexTwoChapters : Int → Option Str :=
  Function.update (Function.update (fun _ => none) 1 (some "http://x/1".toList)) 2
    (some "http://x/2".toList)

/-- The object of the end-to-end example after the listing is loaded. -/
def loadedTwoChapters : ImgLiex :=
  { ImgLiex.new (fun _ => none) (fun _ => true) with chapterLinks := indexTwoChapters }

/-- The object with one chapter taken out of the index. -/
def ImgLiex.without (self : ImgLiex) (chapterNum : Int) : ImgLiex :=
  { self with chapterLinks := Function.update self.chapterLinks chapterNum none }

/-- The fake network of the failure example: chapter 1 has three images,
every other URL fails. -/
def netOnlyOne : Net := fun url =>
  if url = "http://x/1".toList then some pageThreeImages else none

/-- A new object over the disk another object left, with the same listing
loaded: the state at the start of a second invocation of the program. -/
def ImgLiex.restart (self : ImgLiex) : ImgLiex :=
  { ImgLiex.new self.files self.writable with chapterLinks := self.chapterLinks }

/-- The network that serves the page with a line feed in `src` for every
URL. -/
def netLineFeed : Net := fun _ => some pageWithLineFeed

/-- The object with chapter 1 loaded, over an empty disk that accepts
writes. -/
def loadedOne : ImgLiex :=
  { ImgLiex.new (fun _ => none) (fun _ => true) with chapterLinks := indexOne }

/-- What a call of `processChapter` does to its own chapter, from the cache
entry, the file and the write permission of that chapter alone: the outcome
line, the file and the cache entry afterwards. -/
def chapterStep (net : Net) (n : Int) (url : Str) (cached : Option Nat) (file : Option Str)
    (w : Bool) : Outcome × Option Str × Option Nat :=
  match cached with
  | some k =>
    if (match file with
        | none => false
        | some text => countLinesfast (some text) == k) then (Outcome.skip k, file, cached)
    else
      match net url with
      | none => (Outcome.fail Exn.curlError, file, cached)
      | some html =>
        if w then (Outcome.ok (extractImageLinks html).length,
          some (writeLinks (extractImageLinks html)), cached)
        else (Outcome.fail (Exn.cannotCreateBase n), file, cached)
  | none =>
    ((freshOutcome net n url file w).1, (freshOutcome net n url file w).2,
      match net url with
      | none => none
      | some html => some (extractImageLinks html).length)

/-- An image element with `src` before `class`, as the second pattern wants
it. -/
def imgTagSrcFirst (src : String) : Str :=
  "<img src=".toList ++ [sq] ++ src.toList ++ [sq] ++ " class=".toList ++ [dq] ++
  "imgholder".toList ++ [dq] ++ "/>".toList

/-! ## Facts about lines -/

theorem getlinesAux_cons (c : Char) (s cur : Str) :
    getlinesAux (c :: s) cur =
      if c == lf then cur :: getlinesAux s [] else getlinesAux s (cur ++ [c]) := rfl

theorem openTail_cons (d : Char) (s : Str) (x y : Nat) :
    openTail (d :: s).getLast? x = openTail (d :: s).getLast? y := by
  rw [List.getLast?_eq_getLast _ (List.cons_ne_nil d s)]
  rfl

theorem getlinesAux_length (s cur : Str) :
    (getlinesAux s cur).length =
      s.count lf + openTail s.getLast? (if cur.isEmpty then 0 else 1) := by
  induction s generalizing cur with
  | nil => cases cur <;> simp [getlinesAux, openTail]
  | cons c s ih =>
    rw [getlinesAux_cons]
    by_cases hc : c = lf
    · subst hc
      simp only [beq_self_eq_true, if_true, List.length_cons, ih, List.count_cons_self]
      cases s with
      | nil => simp [openTail]
      | cons d s =>
        rw [List.getLast?_cons_cons, openTail_cons d s _ (if cur.isEmpty then 0 else 1)]
        omega
    · have hb : (c == lf) = false := by simpa using hc
      have hcount : List.count lf (c :: s) = List.count lf s := by
        rw [List.count_cons]; simp [hb]
      rw [hcount, if_neg (by simp [hb]), ih]
      cases s with
      | nil => simp [openTail, hc]
      | cons d s =>
        rw [List.getLast?_cons_cons, openTail_cons d s _ (if cur.isEmpty then 0 else 1)]

theorem countLinesfast_eq_lineCount (text : Str) :
    countLinesfast (some text) = lineCount text := by
  simp [countLinesfast, getlines, lineCount, getlinesAux_length]

theorem writeLinks_foldl (out : Str) (links : List Str) :
    links.foldl (fun out link => out ++ link ++ [lf]) out = out ++ linesText links := by
  induction links generalizing out with
  | nil => simp [linesText]
  | cons l ls ih =>
    rw [List.foldl_cons, ih]
    simp [linesText]

theorem writeLinks_eq (links : List Str) : writeLinks links = linesText links := by
  rw [writeLinks, writeLinks_foldl, List.nil_append]

theorem getlinesAux_line (link rest cur : Str) (h : lf ∉ link) :
    getlinesAux (link ++ lf :: rest) cur = (cur ++ link) :: getlinesAux rest [] := by
  induction link generalizing cur with
  | nil => simp [getlinesAux]
  | cons c link ih =>
    have hc : c ≠ lf := fun e => h (by simp [e])
    have hl : lf ∉ link := fun e => h (by simp [e])
    simp [getlinesAux, hc, ih _ hl]

theorem getlines_linesText (links : List Str) (h : ∀ link ∈ links, lf ∉ link) :
    getlines (linesText links) = links := by
  induction links with
  | nil => simp [getlines, linesText, getlinesAux]
  | cons l ls ih =>
    have h1 : lf ∉ l := h l (by simp)
    have h2 : ∀ link ∈ ls, lf ∉ link := fun x hx => h x (by simp [hx])
    simp only [getlines] at ih ⊢
    simp [linesText, getlinesAux_line _ _ _ h1, ih h2]

theorem getlines_writeLinks (links : List Str) (h : ∀ link ∈ links, lf ∉ link) :
    getlines (writeLinks links) = links := by
  rw [writeLinks_eq, getlines_linesText links h]

/-! ## The resume check and persistence -/

/-- C2: `chapterAlreadyProcessed n k` is true exactly when the chapter's
`base.txt` exists and has `k` lines; so it is false without a file (also for
`k = 0`), true for an empty file and `k = 0`, the same for two files with the
same number of lines whatever they contain, and false when the number of lines
is not `k`. -/
theorem chapterAlreadyProcessed_iff_lineCount (self : ImgLiex) (n : Int) (k : Nat) :
    (chapterAlreadyProcessed self n k = true ↔
      ∃ text, self.files n = some text ∧ lineCount text = k) ∧
    (self.files n = none → chapterAlreadyProcessed self n 0 = false) ∧
    (self.files n = some [] → chapterAlreadyProcessed self n 0 = true) ∧
    (∀ (other : ImgLiex) (t1 t2 : Str), self.files n = some t1 → other.files n = some t2 →
      lineCount t1 = lineCount t2 →
      chapterAlreadyProcessed self n k = chapterAlreadyProcessed other n k) ∧
    (∀ text, self.files n = some text → lineCount text ≠ k →
      chapterAlreadyProcessed self n k = false) := by
  refine ⟨?_, ?_, ?_, ?_, ?_⟩
  · unfold chapterAlreadyProcessed
    cases h : self.files n with
    | none => simp
    | some text => simp [countLinesfast_eq_lineCount]
  · intro h
    simp [chapterAlreadyProcessed, h]
  · intro h
    simp [chapterAlreadyProcessed, h, countLinesfast, getlines, getlinesAux]
  · intro other t1 t2 h1 h2 h
    simp [chapterAlreadyProcessed, h1, h2, countLinesfast_eq_lineCount, h]
  · intro text h hk
    simp [chapterAlreadyProcessed, h, countLinesfast_eq_lineCount, hk]

/-- Persisting links that hold no line feed writes exactly one line per link,
replaces the previous file, and makes the resume check succeed. -/
theorem saveImageLinks_lines (self : ImgLiex) (n : Int) (links : List Str)
    (hw : self.writable n = true) (hlf : ∀ link ∈ links, lf ∉ link) :
    ∃ saved, saveImageLinks self n links = Except.ok saved ∧
      saved.files n = some (writeLinks links) ∧
      getlines (writeLinks links) = links ∧
      countLinesfast (saved.files n) = links.length ∧
      chapterAlreadyProcessed saved n links.length = true := by
  refine ⟨{ self with files := Function.update self.files n (some (writeLinks links)) },
    by simp [saveImageLinks, hw], ?_, getlines_writeLinks links hlf, ?_, ?_⟩
  · simp
  · simp [countLinesfast, getlines_writeLinks links hlf]
  · simp [chapterAlreadyProcessed, countLinesfast, getlines_writeLinks links hlf]

/-- C3 at a link that holds a line feed: `saveImageLinks` succeeds on the one
link `a<LF>b`, and `base.txt` then has two lines, `a` and `b`, so
`chapterAlreadyProcessed` with the link count 1 is false. -/
theorem saveImageLinks_line_feed_link :
    ∃ saved, saveImageLinks (ImgLiex.new (fun _ => none) (fun _ => true)) 1 [['a', lf, 'b']]
        = Except.ok saved ∧
      saved.files 1 = some ['a', lf, 'b', lf] ∧
      getlines ['a', lf, 'b', lf] = [['a'], ['b']] ∧
      countLinesfast (saved.files 1) = 2 ∧
      chapterAlreadyProcessed saved 1 1 = false := by
  refine ⟨_, rfl, ?_, ?_, ?_, ?_⟩ <;> decide

/-! ## Extraction -/

theorem pushAll_eq (acc caps : List Str) : pushAll acc caps = acc ++ caps := by
  induction caps generalizing acc with
  | nil => simp [pushAll]
  | cons c cs ih =>
    have := ih (acc ++ [c])
    simp only [pushAll, List.foldl_cons] at this ⊢
    rw [this]; simp

/-- C4: `extractImageLinks` returns the captures of the first pattern when
there is at least one, otherwise the captures of the second pattern; the two
lists are never mixed, and with no match of either pattern the result is the
empty list. -/
theorem extractImageLinks_first_nonempty_pass (m : Str) :
    (allCaptures imgRegex 0 m ≠ [] → extractImageLinks m = allCaptures imgRegex 0 m) ∧
    (allCaptures imgRegex 0 m = [] → extractImageLinks m = allCaptures imgRegex2 0 m) ∧
    (allCaptures imgRegex 0 m = [] → allCaptures imgRegex2 0 m = [] →
      extractImageLinks m = []) := by
  unfold extractImageLinks
  simp only [pushAll_eq, List.nil_append]
  refine ⟨?_, ?_, ?_⟩
  · intro h
    simp [h]
  · intro h
    simp [h]
  · intro h1 h2
    simp [h1, h2]

/-! ## Loading the listing -/

/-- C6 at a chapter number that does not fit an `int`: the listing can be
opened, and `extractChapterLinks` ends with the `std::out_of_range` of
`std::stoi` instead of returning. -/
theorem extractChapterLinks_long_digits_throws :
    extractChapterLinks (ImgLiex.new (fun _ => none) (fun _ => true)) (some listingLongDigits)
      = Except.error Exn.stoiOutOfRange := by
  rfl

theorem runGroup_always (a : Atom) (acc s : Str) :
    runGroup a (fun cap s1 => matchHere [] cap s1) acc s =
      some (acc ++ s.takeWhile a.test, s.dropWhile a.test) := by
  induction s generalizing acc with
  | nil => simp [runGroup, matchHere]
  | cons c s ih =>
    by_cases hc : a.test c = true
    · simp [runGroup, hc, ih, List.takeWhile_cons, List.dropWhile_cons]
    · simp [runGroup, hc, matchHere, List.takeWhile_cons, List.dropWhile_cons]

theorem stoi_ok (digits : Str) (a : Int) (h : stoi digits = Except.ok a) :
    a = (digitsValue digits : Int) := by
  unfold stoi at h
  split at h
  · injection h with h; exact h.symm
  · cases h

theorem markerDigits_startsWithMarker (line ds : Str) (h : markerDigits line = some ds) :
    startsWithMarker line = true := by
  unfold markerDigits at h
  by_cases hs : startsWithMarker line = true
  · exact hs
  · simp [hs] at h

theorem strictMarker_markerDigits (line : Str) (n : Nat) (h : strictMarker line = some n) :
    ∃ ds, markerDigits line = some ds ∧ digitsValue ds = n := by
  unfold strictMarker at h
  split at h
  · rename_i hp
    have hlit : "# Chapter ".toList = ['#', ' ', 'C', 'h', 'a', 'p', 't', 'e', 'r', ' '] := rfl
    rw [hlit, List.isPrefixOf_iff_prefix] at hp
    obtain ⟨rest, rfl⟩ := hp
    simp only [List.cons_append, List.nil_append, List.drop_succ_cons, List.drop_zero] at h
    cases rest with
    | nil => simp at h
    | cons c s =>
      by_cases hc : c.isDigit = true
      · refine ⟨c :: s.takeWhile Char.isDigit, ?_, ?_⟩
        · have hlit2 : "# Chapter".toList = ['#', ' ', 'C', 'h', 'a', 'p', 't', 'e', 'r'] := rfl
          have h1 : startsWithMarker
              ('#' :: ' ' :: 'C' :: 'h' :: 'a' :: 'p' :: 't' :: 'e' :: 'r' :: ' ' :: c :: s) = true := by
            simp [startsWithMarker, hlit2]
          have hre : chapterRegex = [Node.one (Atom.chr '#'), Node.one (Atom.chr ' '),
              Node.one (Atom.chr 'C'), Node.one (Atom.chr 'h'), Node.one (Atom.chr 'a'),
              Node.one (Atom.chr 'p'), Node.one (Atom.chr 't'), Node.one (Atom.chr 'e'),
              Node.one (Atom.chr 'r'), Node.one (Atom.chr ' '), Node.group Atom.digit] := rfl
          have h2 : matchHere chapterRegex []
              ('#' :: ' ' :: 'C' :: 'h' :: 'a' :: 'p' :: 't' :: 'e' :: 'r' :: ' ' :: c :: s) =
              some (c :: s.takeWhile Char.isDigit, s.dropWhile Char.isDigit) := by
            rw [hre]
            simp only [matchHere, Atom.test, beq_self_eq_true, if_true, hc]
            have := runGroup_always Atom.digit [c] s
            simpa [Atom.test] using this
          simp [markerDigits, h1, regexSearch, h2]
        · simpa [List.takeWhile_cons, hc] using h
      · simp [List.takeWhile_cons, hc] at h
  · cases h

theorem loadLoop_frame (ls : List Str) (m0 m : Int → Option Str) (n : Int)
    (h : loadLoop ls m0 = Except.ok m)
    (hn : ∀ line ∈ ls, ∀ ds, markerDigits line = some ds → (digitsValue ds : Int) ≠ n) :
    m n = m0 n := by
  induction ls, m0 using loadLoop.induct with
  | case1 m0 => simp [loadLoop] at h; rw [h]
  | case2 line m0 hm => simp [loadLoop, hm] at h; rw [h]
  | case3 line m0 ds hm e he => simp [loadLoop, hm, he] at h
  | case4 line m0 ds hm a ha => simp [loadLoop, hm, ha] at h; rw [h]
  | case5 line url rest m0 hm ih =>
    simp only [loadLoop, hm] at h
    exact ih h (fun l hl => hn l (by simp [hl]))
  | case6 line url rest m0 ds hm e he => simp [loadLoop, hm, he] at h
  | case7 line url rest m0 ds hm a ha ih =>
    simp only [loadLoop, hm, ha] at h
    rw [ih h (fun l hl => hn l (by simp [hl]))]
    have hne : n ≠ a := by
      rw [stoi_ok ds a ha]
      exact fun e => hn line (by simp) ds hm e.symm
    exact Function.update_noteq hne _ _

theorem loadLoop_marker (ls : List Str) (m0 m : Int → Option Str)
    (h : loadLoop ls m0 = Except.ok m) (i n : Nat) (line url : Str)
    (hread : outerRead ls i = true) (hline : ls[i]? = some line)
    (hm : strictMarker line = some n) (hurl : ls[i + 1]? = some url)
    (hlast : ∀ j line2 ds, i < j → ls[j]? = some line2 → markerDigits line2 = some ds →
      (digitsValue ds : Int) ≠ n) :
    m (n : Int) = some (trim url) := by
  induction ls, m0 using loadLoop.induct generalizing i with
  | case1 m0 => simp at hline
  | case2 line0 m0 hm0 => simp at hurl
  | case3 line0 m0 ds hm0 e he => simp at hurl
  | case4 line0 m0 ds hm0 a ha => simp at hurl
  | case5 line0 url0 rest m0 hm0 ih =>
    simp only [loadLoop, hm0] at h
    cases i with
    | zero =>
      simp at hline
      subst hline
      obtain ⟨ds, hds, _⟩ := strictMarker_markerDigits _ _ hm
      rw [hm0] at hds; cases hds
    | succ i =>
      have hr : outerRead (url0 :: rest) i = true := by
        simpa [outerRead, hm0] using hread
      refine ih h i hr (by simpa using hline) (by simpa using hurl) ?_
      intro j line2 ds hj hl2 hds
      exact hlast (j + 1) line2 ds (by omega) (by simpa using hl2) hds
  | case6 line0 url0 rest m0 ds hm0 e he => simp [loadLoop, hm0, he] at h
  | case7 line0 url0 rest m0 ds hm0 a ha ih =>
    simp only [loadLoop, hm0, ha] at h
    cases i with
    | zero =>
      simp at hline hurl
      subst hline hurl
      obtain ⟨ds2, hds2, hv⟩ := strictMarker_markerDigits _ _ hm
      rw [hm0] at hds2
      injection hds2 with hds2
      subst hds2
      have han : a = (n : Int) := by rw [stoi_ok _ a ha, hv]
      subst han
      rw [loadLoop_frame rest _ m n h ?_]
      · simp
      · intro l hl ds3 hds3
        obtain ⟨k, hk⟩ := List.getElem?_of_mem hl
        exact hlast (k + 2) l ds3 (by omega) (by simpa using hk) hds3
    | succ i =>
      cases i with
      | zero => simp [outerRead, hm0] at hread
      | succ i =>
        have hr : outerRead rest i = true := by
          simpa [outerRead, hm0] using hread
        refine ih h i hr (by simpa using hline) (by simpa using hurl) ?_
        intro j line2 ds3 hj hl2 hds3
        exact hlast (j + 2) line2 ds3 (by omega) (by simpa using hl2) hds3

theorem loadLoop_entries (ls : List Str) (m0 m : Int → Option Str)
    (h : loadLoop ls m0 = Except.ok m) (n : Int) (u : Str) (hu : m n = some u) :
    m0 n = some u ∨ ∃ i line url, outerRead ls i = true ∧ ls[i]? = some line ∧
      startsWithMarker line = true ∧ ls[i + 1]? = some url ∧ u = trim url := by
  induction ls, m0 using loadLoop.induct with
  | case1 m0 => simp [loadLoop] at h; subst h; exact Or.inl hu
  | case2 line m0 hm => simp [loadLoop, hm] at h; subst h; exact Or.inl hu
  | case3 line m0 ds hm e he => simp [loadLoop, hm, he] at h
  | case4 line m0 ds hm a ha => simp [loadLoop, hm, ha] at h; subst h; exact Or.inl hu
  | case5 line0 url0 rest m0 hm0 ih =>
    simp only [loadLoop, hm0] at h
    rcases ih h with h1 | ⟨i, line, url, hr, hl, hs, hurl, hut⟩
    · exact Or.inl h1
    · refine Or.inr ⟨i + 1, line, url, ?_, by simpa using hl, hs, by simpa using hurl, hut⟩
      simpa [outerRead, hm0] using hr
  | case6 line0 url0 rest m0 ds hm0 e he => simp [loadLoop, hm0, he] at h
  | case7 line0 url0 rest m0 ds hm0 a ha ih =>
    simp only [loadLoop, hm0, ha] at h
    rcases ih h with h1 | ⟨i, line, url, hr, hl, hs, hurl, hut⟩
    · by_cases hna : n = a
      · subst hna
        rw [Function.update_same] at h1
        injection h1 with h1
        exact Or.inr ⟨0, line0, url0, by simp [outerRead], by simp,
          markerDigits_startsWithMarker _ _ hm0, by simp, h1.symm⟩
      · rw [Function.update_noteq hna] at h1
        exact Or.inl h1
    · refine Or.inr ⟨i + 2, line, url, ?_, by simpa using hl, hs, by simpa using hurl, hut⟩
      simpa [outerRead, hm0] using hr

/-- C5 as amended: when the load completes, every line the loop reads as a
candidate marker line (one not consumed as the URL line of the marker before
it) that matches `# Chapter <integer>` with integer `n`, has a next line, and
is followed by no later line naming `n`, makes the loaded index map `n` to the
next line trimmed; and every entry the load adds is the trimmed line after a
line the loop read that begins with `# Chapter`. -/
theorem extractChapterLinks_parse_rule (self loaded : ImgLiex) (text : Str) (res : Bool)
    (h : extractChapterLinks self (some text) = Except.ok (res, loaded)) :
    (∀ (i n : Nat) (line url : Str), outerRead (getlines text) i = true →
      (getlines text)[i]? = some line → strictMarker line = some n →
      (getlines text)[i + 1]? = some url →
      (∀ j line2 ds, i < j → (getlines text)[j]? = some line2 → markerDigits line2 = some ds →
        (digitsValue ds : Int) ≠ n) →
      loaded.chapterLinks (n : Int) = some (trim url)) ∧
    (∀ (n : Int) (u : Str), loaded.chapterLinks n = some u →
      self.chapterLinks n = some u ∨
      ∃ i line url, outerRead (getlines text) i = true ∧ (getlines text)[i]? = some line ∧
        startsWithMarker line = true ∧ (getlines text)[i + 1]? = some url ∧ u = trim url) := by
  unfold extractChapterLinks at h
  simp only at h
  cases hl : loadLoop (getlines text) self.chapterLinks with
  | error e => rw [hl] at h; cases h
  | ok links =>
    rw [hl] at h
    injection h with h
    injection h with _ h
    subst h
    refine ⟨?_, ?_⟩
    · intro i n line url hread hline hm hurl hlast
      exact loadLoop_marker _ _ _ hl i n line url hread hline hm hurl hlast
    · intro n u hu
      exact loadLoop_entries _ _ _ hl n u hu

/-- Witness of C5 as amended: in the two-chapter listing, line 0 names
chapter 1 and the loaded index maps 1 to line 1. -/
theorem extractChapterLinks_parse_rule_witness :
    (extractChapterLinks (ImgLiex.new (fun _ => none) (fun _ => true)) (some listingTwoChapters)).toOption.map
        (fun r => r.2.chapterLinks 1) = some (some "http://x/1".toList) ∧
    strictMarker "# Chapter 1".toList = some 1 := by
  have h : extractChapterLinks (ImgLiex.new (fun _ => none) (fun _ => true))
      (some listingTwoChapters) = Except.ok (true,
        { ImgLiex.new (fun _ => none) (fun _ => true) with
          chapterLinks := Function.update (Function.update (fun _ => none) 1
            (some "http://x/1".toList)) 2 (some "http://x/2".toList) }) := by
    rfl
  have hmain := (extractChapterLinks_parse_rule _ _ _ _ h).1 0 1 "# Chapter 1".toList
    "http://x/1".toList (by decide) (by decide) (by decide) (by decide) ?_
  · refine ⟨?_, by decide⟩
    rw [h]
    simp [Except.toOption, hmain]
  · intro j line2 ds hj hl hd
    have hlen : (getlines listingTwoChapters) =
        ["# Chapter 1".toList, "http://x/1".toList, "# Chapter 2".toList, "http://x/2".toList] := by
      decide
    rw [hlen] at hl
    match j, hj with
    | 1, _ =>
      simp at hl; subst hl
      have e : markerDigits "http://x/1".toList = none := by decide
      exact Option.noConfusion (e.symm.trans hd)
    | 2, _ =>
      simp at hl; subst hl
      have e : markerDigits "# Chapter 2".toList = some ['2'] := by decide
      have e2 : some ['2'] = some ds := e.symm.trans hd
      injection e2 with e2
      subst e2
      decide
    | 3, _ =>
      simp at hl; subst hl
      have e : markerDigits "http://x/2".toList = none := by decide
      exact Option.noConfusion (e.symm.trans hd)
    | (k + 4), _ => simp at hl

/-- C5 as stated fails when a marker line directly follows a marker line:
line 1 matches `# Chapter 2`, has a next line and no later line names 2, yet
the loaded index has no entry for 2 (line 1 was consumed as the URL of
chapter 1). -/
theorem extractChapterLinks_marker_taken_as_url :
    getlines listingMarkerAfterMarker =
      ["# Chapter 1".toList, "# Chapter 2".toList, "http://x/2".toList] ∧
    strictMarker "# Chapter 2".toList = some 2 ∧
    markerDigits "http://x/2".toList = none ∧
    ∃ loaded, extractChapterLinks (ImgLiex.new (fun _ => none) (fun _ => true))
        (some listingMarkerAfterMarker) = Except.ok (true, loaded) ∧
      loaded.chapterLinks 2 = none ∧
      loaded.chapterLinks 1 = some "# Chapter 2".toList := by
  refine ⟨by decide, by decide, by decide, _, rfl, by decide, by decide⟩

/-! ## One call of `processChapter` -/

/-- What any call of `processChapter` does: it prints one outcome line for the
chapter, bumps the counter that goes with it by one, and leaves the index, the
write permissions, and the files and cache entries of other chapters alone. -/
theorem processChapter_spec (net : Net) (self : ImgLiex) (n : Int) (url : Str) :
    ∃ o : Outcome,
      (processChapter net self n url).console = self.console ++ [(n, o)] ∧
      (processChapter net self n url).processedCount
        = self.processedCount + (if o.isOk then 1 else 0) ∧
      (processChapter net self n url).skippedCount
        = self.skippedCount + (if o.isSkip then 1 else 0) ∧
      (processChapter net self n url).errorCount
        = self.errorCount + (if o.isFail then 1 else 0) ∧
      (processChapter net self n url).chapterLinks = self.chapterLinks ∧
      (processChapter net self n url).writable = self.writable ∧
      (∀ m, m ≠ n → (processChapter net self n url).files m = self.files m) ∧
      (∀ m, m ≠ n → (processChapter net self n url).expectedCountsCache m
        = self.expectedCountsCache m) := by
  unfold processChapter processTry processTail downloadHTML saveImageLinks
  cases hc : self.expectedCountsCache n with
  | some k =>
    simp only
    by_cases hp : chapterAlreadyProcessed self n k = true
    · refine ⟨Outcome.skip k, ?_⟩
      simp [hp, ImgLiex.reportSkip, Outcome.isOk, Outcome.isSkip, Outcome.isFail]
    · cases hn : net url with
      | none =>
        refine ⟨Outcome.fail Exn.curlError, ?_⟩
        simp [hp, ImgLiex.reportFail, Outcome.isOk, Outcome.isSkip, Outcome.isFail]
      | some html =>
        by_cases hw : self.writable n = true
        · refine ⟨Outcome.ok (extractImageLinks html).length, ?_⟩
          simp [hp, hw, ImgLiex.reportOk, Outcome.isOk, Outcome.isSkip, Outcome.isFail]
          intro m hm
          exact Function.update_noteq hm _ _
        · refine ⟨Outcome.fail (Exn.cannotCreateBase n), ?_⟩
          simp [hp, hw, ImgLiex.reportFail, Outcome.isOk, Outcome.isSkip, Outcome.isFail]
  | none =>
    cases hn : net url with
    | none =>
      refine ⟨Outcome.fail Exn.curlError, ?_⟩
      simp [ImgLiex.reportFail, Outcome.isOk, Outcome.isSkip, Outcome.isFail]
    | some html =>
      simp only
      have hcp : ∀ k, chapterAlreadyProcessed
          { self with expectedCountsCache :=
              Function.update self.expectedCountsCache n (some (extractImageLinks html).length) }
          n k = chapterAlreadyProcessed self n k := fun k => rfl
      by_cases hp : chapterAlreadyProcessed self n (extractImageLinks html).length = true
      · refine ⟨Outcome.skip (extractImageLinks html).length, ?_⟩
        simp [hcp, hp, ImgLiex.reportSkip, Outcome.isOk, Outcome.isSkip, Outcome.isFail]
        intro m hm
        exact Function.update_noteq hm _ _
      · by_cases hw : self.writable n = true
        · refine ⟨Outcome.ok (extractImageLinks html).length, ?_⟩
          simp [hcp, hp, hw, ImgLiex.reportOk, Outcome.isOk, Outcome.isSkip, Outcome.isFail]
          constructor <;> intro m hm <;> exact Function.update_noteq hm _ _
        · refine ⟨Outcome.fail (Exn.cannotCreateBase n), ?_⟩
          simp [hcp, hp, hw, ImgLiex.reportFail, Outcome.isOk, Outcome.isSkip, Outcome.isFail]
          intro m hm
          exact Function.update_noteq hm _ _

/-- A call of `processChapter` with no cache entry for the chapter: the outcome
line and the file are those of `freshOutcome`. -/
theorem processChapter_fresh (net : Net) (self : ImgLiex) (n : Int) (url : Str)
    (hc : self.expectedCountsCache n = none) :
    (processChapter net self n url).console
      = self.console ++ [(n, (freshOutcome net n url (self.files n) (self.writable n)).1)] ∧
    (processChapter net self n url).files n
      = (freshOutcome net n url (self.files n) (self.writable n)).2 := by
  unfold processChapter processTry processTail downloadHTML saveImageLinks freshOutcome
  rw [hc]
  cases hn : net url with
  | none => simp [ImgLiex.reportFail]
  | some html =>
    simp only
    have hcp : ∀ k, chapterAlreadyProcessed
        { self with expectedCountsCache :=
            Function.update self.expectedCountsCache n (some (extractImageLinks html).length) }
        n k = chapterAlreadyProcessed self n k := fun k => rfl
    cases hf : self.files n with
    | none =>
      have hp : chapterAlreadyProcessed self n (extractImageLinks html).length = false := by
        simp [chapterAlreadyProcessed, hf]
      by_cases hw : self.writable n = true
      · simp [hcp, hp, hw, ImgLiex.reportOk]
      · simp [hcp, hp, hw, ImgLiex.reportFail, hf]
    | some text =>
      by_cases hl : countLinesfast (some text) = (extractImageLinks html).length
      · have hp : chapterAlreadyProcessed self n (extractImageLinks html).length = true := by
          simp [chapterAlreadyProcessed, hf, hl]
        simp [hcp, hp, hl, ImgLiex.reportSkip, hf]
      · have hp : chapterAlreadyProcessed self n (extractImageLinks html).length = false := by
          simp [chapterAlreadyProcessed, hf, hl]
        by_cases hw : self.writable n = true
        · simp [hcp, hp, hl, hw, ImgLiex.reportOk]
        · simp [hcp, hp, hl, hw, ImgLiex.reportFail, hf]

/-! ## Runs of tasks -/

theorem runTasks_cons (net : Net) (self : ImgLiex) (t : Int × Str) (ts : List (Int × Str)) :
    runTasks net self (t :: ts) = runTasks net (processChapter net self t.1 t.2) ts := rfl

theorem runTasks_append (net : Net) (self : ImgLiex) (ts us : List (Int × Str)) :
    runTasks net self (ts ++ us) = runTasks net (runTasks net self ts) us := by
  simp [runTasks, List.foldl_append]

theorem outcome_kinds (o : Outcome) :
    (if o.isOk then 1 else 0) + (if o.isSkip then 1 else 0) + (if o.isFail then 1 else 0) = 1 := by
  cases o <;> simp [Outcome.isOk, Outcome.isSkip, Outcome.isFail]

/-- What a run of tasks does, whatever the cache holds: one outcome line per
task, in order, each counted in its counter; the index, the permissions, and
the files and cache entries of chapters without a task are left alone. -/
theorem runTasks_spec (net : Net) (ts : List (Int × Str)) (self : ImgLiex) :
    ∃ os : List (Int × Outcome),
      (runTasks net self ts).console = self.console ++ os ∧
      os.map Prod.fst = ts.map Prod.fst ∧
      (runTasks net self ts).processedCount
        = self.processedCount + os.countP (fun e => e.2.isOk) ∧
      (runTasks net self ts).skippedCount
        = self.skippedCount + os.countP (fun e => e.2.isSkip) ∧
      (runTasks net self ts).errorCount
        = self.errorCount + os.countP (fun e => e.2.isFail) ∧
      (runTasks net self ts).chapterLinks = self.chapterLinks ∧
      (runTasks net self ts).writable = self.writable ∧
      (∀ m, m ∉ ts.map Prod.fst → (runTasks net self ts).files m = self.files m) ∧
      (∀ m, m ∉ ts.map Prod.fst → (runTasks net self ts).expectedCountsCache m
        = self.expectedCountsCache m) := by
  induction ts generalizing self with
  | nil => exact ⟨[], by simp [runTasks]⟩
  | cons t ts ih =>
    obtain ⟨o, h1, h2, h3, h4, h5, h6, h7, h8⟩ := processChapter_spec net self t.1 t.2
    obtain ⟨os, g1, g2, g3, g4, g5, g6, g7, g8, g9⟩ := ih (processChapter net self t.1 t.2)
    refine ⟨(t.1, o) :: os, ?_, ?_, ?_, ?_, ?_, ?_, ?_, ?_, ?_⟩
    · rw [runTasks_cons, g1, h1]; simp
    · simp [g2]
    · rw [runTasks_cons, g3, h2, List.countP_cons]; simp only; omega
    · rw [runTasks_cons, g4, h3, List.countP_cons]; simp only; omega
    · rw [runTasks_cons, g5, h4, List.countP_cons]; simp only; omega
    · rw [runTasks_cons, g6, h5]
    · rw [runTasks_cons, g7, h6]
    · intro m hm
      simp only [List.map_cons, List.mem_cons, not_or] at hm
      rw [runTasks_cons, g8 m hm.2, h7 m hm.1]
    · intro m hm
      simp only [List.map_cons, List.mem_cons, not_or] at hm
      rw [runTasks_cons, g9 m hm.2, h8 m hm.1]

theorem countP_kinds (os : List (Int × Outcome)) :
    os.countP (fun e => e.2.isOk) + os.countP (fun e => e.2.isSkip)
      + os.countP (fun e => e.2.isFail) = os.length := by
  induction os with
  | nil => simp
  | cons e os ih =>
    have := outcome_kinds e.2
    simp only [List.countP_cons, List.length_cons]
    omega

/-- A run of tasks over distinct chapters, none of them in the cache: the
outcome lines and the files are those of `freshOutcome` on the initial
files. -/
theorem runTasks_fresh (net : Net) (ts : List (Int × Str)) (self : ImgLiex)
    (hnd : (ts.map Prod.fst).Nodup)
    (hc : ∀ t ∈ ts, self.expectedCountsCache t.1 = none) :
    (runTasks net self ts).console = self.console ++
      ts.map (fun t => (t.1, (freshOutcome net t.1 t.2 (self.files t.1) (self.writable t.1)).1)) ∧
    (∀ t ∈ ts, (runTasks net self ts).files t.1
      = (freshOutcome net t.1 t.2 (self.files t.1) (self.writable t.1)).2) := by
  induction ts generalizing self with
  | nil => simp [runTasks]
  | cons t ts ih =>
    obtain ⟨f1, f2⟩ := processChapter_fresh net self t.1 t.2 (hc t (by simp))
    obtain ⟨o, h1, h2, h3, h4, h5, h6, h7, h8⟩ := processChapter_spec net self t.1 t.2
    simp only [List.map_cons, List.nodup_cons] at hnd
    have hkey : ∀ u ∈ ts, u.1 ≠ t.1 := by
      intro u hu e
      exact hnd.1 (e ▸ List.mem_map_of_mem Prod.fst hu)
    have hc2 : ∀ u ∈ ts, (processChapter net self t.1 t.2).expectedCountsCache u.1 = none := by
      intro u hu
      rw [h8 u.1 (hkey u hu)]
      exact hc u (by simp [hu])
    obtain ⟨g1, g2⟩ := ih (processChapter net self t.1 t.2) hnd.2 hc2
    obtain ⟨os, k1, k2, k3, k4, k5, k6, k7, k8, k9⟩ :=
      runTasks_spec net ts (processChapter net self t.1 t.2)
    refine ⟨?_, ?_⟩
    · rw [runTasks_cons, g1, f1, List.append_assoc]
      congr 1
      simp only [List.map_cons, List.singleton_append, List.cons.injEq, true_and]
      apply List.map_congr_left
      intro u hu
      rw [h7 u.1 (hkey u hu), h6]
    · intro u hu
      rw [runTasks_cons]
      rcases List.mem_cons.1 hu with e | hu
      · subst e
        rw [k8 u.1 hnd.1, f2]
      · rw [g2 u hu, h7 u.1 (hkey u hu), h6]

/-! ## The loop of `processChapters` seen from the object -/

theorem presentTasks_cons (idx : Int → Option Str) (n : Int) (l : List Int) :
    presentTasks idx (n :: l) =
      (match idx n with
        | some url => [(n, url)]
        | none => []) ++ presentTasks idx l := by
  unfold presentTasks
  cases h : idx n <;> simp [List.filterMap_cons, h]

theorem presentTasks_keys (idx : Int → Option Str) (l : List Int) :
    (presentTasks idx l).map Prod.fst = l.filter (fun n => (idx n).isSome) := by
  induction l with
  | nil => simp [presentTasks]
  | cons n l ih =>
    rw [presentTasks_cons, List.map_append, ih]
    cases h : idx n <;> simp [List.filter_cons, h]

theorem mem_presentTasks (idx : Int → Option Str) (l : List Int) (t : Int × Str) :
    t ∈ presentTasks idx l ↔ t.1 ∈ l ∧ idx t.1 = some t.2 := by
  unfold presentTasks
  simp only [List.mem_filterMap, Option.map_eq_some']
  constructor
  · rintro ⟨n, hn, url, hu, rfl⟩
    exact ⟨hn, hu⟩
  · rintro ⟨h1, h2⟩
    exact ⟨t.1, h1, t.2, h2, rfl⟩

theorem chapterRange_pairwise (startChapter endChapter : Int) :
    (chapterRange startChapter endChapter).Pairwise (fun a b => a < b) := by
  unfold chapterRange
  rw [List.pairwise_map]
  refine List.Pairwise.imp ?_ (List.pairwise_lt_range _)
  intro a b h
  have : (a : Int) < (b : Int) := Int.ofNat_lt.2 h
  omega

theorem mem_chapterRange (startChapter endChapter n : Int) :
    n ∈ chapterRange startChapter endChapter ↔ startChapter ≤ n ∧ n ≤ endChapter := by
  unfold chapterRange
  simp only [List.mem_map, List.mem_range]
  constructor
  · rintro ⟨i, hi, rfl⟩
    have := Int.lt_toNat.1 hi
    constructor <;> omega
  · rintro ⟨h1, h2⟩
    have h3 : ((n - startChapter).toNat : Int) = n - startChapter :=
      Int.toNat_of_nonneg (by omega)
    refine ⟨(n - startChapter).toNat, ?_, by omega⟩
    apply Int.lt_toNat.2
    omega

theorem indexedInRange_pairwise (idx : Int → Option Str) (startChapter endChapter : Int) :
    (indexedInRange idx startChapter endChapter).Pairwise (fun a b => a < b) :=
  List.Pairwise.filter _ (chapterRange_pairwise startChapter endChapter)

theorem indexedInRange_nodup (idx : Int → Option Str) (startChapter endChapter : Int) :
    (indexedInRange idx startChapter endChapter).Nodup :=
  List.Pairwise.imp (fun h => ne_of_lt h) (indexedInRange_pairwise idx startChapter endChapter)

theorem waitAll_self (net : Net) (s : Scheduler) :
    (waitAll net s).self = runTasks net s.self s.futures := rfl

/-- One iteration seen from the object: once all futures are waited for, the
iteration has added the effect of `processChapter` for a chapter in the index,
and nothing for other chapters. -/
theorem loopBody_pending (net : Net) (numThreads : Int) (s : Scheduler) (n : Int) :
    runTasks net (loopBody net numThreads s n).self (loopBody net numThreads s n).futures =
      runTasks net (runTasks net s.self s.futures) (presentTasks s.self.chapterLinks [n]) ∧
    (loopBody net numThreads s n).self.chapterLinks = s.self.chapterLinks := by
  unfold loopBody
  rw [presentTasks_cons]
  cases h : s.self.chapterLinks n with
  | none => simp [presentTasks, runTasks]
  | some url =>
    simp only
    split
    · refine ⟨?_, ?_⟩
      · simp [waitAll, runTasks_append, presentTasks]
        simp [runTasks]
      · obtain ⟨os, g1, g2, g3, g4, g5, g6, _⟩ :=
          runTasks_spec net (s.futures ++ [(n, url)]) s.self
        simpa [waitAll] using g6
    · simp [runTasks_append, presentTasks]

theorem loop_pending (net : Net) (numThreads : Int) (l : List Int) (s : Scheduler) :
    runTasks net (l.foldl (loopBody net numThreads) s).self
        (l.foldl (loopBody net numThreads) s).futures =
      runTasks net (runTasks net s.self s.futures) (presentTasks s.self.chapterLinks l) ∧
    (l.foldl (loopBody net numThreads) s).self.chapterLinks = s.self.chapterLinks := by
  induction l generalizing s with
  | nil => simp [presentTasks, runTasks]
  | cons n l ih =>
    obtain ⟨h1, h2⟩ := loopBody_pending net numThreads s n
    obtain ⟨g1, g2⟩ := ih (loopBody net numThreads s n)
    rw [List.foldl_cons]
    refine ⟨?_, by rw [g2, h2]⟩
    rw [g1, h1, h2, ← runTasks_append]
    congr 1
    unfold presentTasks
    rw [← List.filterMap_append]
    rfl

/-- The object that `processChapters` leaves is the one reached by running
`processChapter`, in increasing order, for the chapters of the range that are
in the index. -/
theorem processChapters_self (net : Net) (self : ImgLiex)
    (startChapter endChapter numThreads : Int) :
    (processChapters net self startChapter endChapter numThreads).self =
      runTasks net self (presentTasks self.chapterLinks (chapterRange startChapter endChapter)) := by
  unfold processChapters
  rw [waitAll_self]
  exact (loop_pending net numThreads _ ⟨self, [], [], []⟩).1

theorem presentTasks_length (idx : Int → Option Str) (startChapter endChapter : Int) :
    (presentTasks idx (chapterRange startChapter endChapter)).length =
      (indexedInRange idx startChapter endChapter).length := by
  rw [← List.length_map (presentTasks idx (chapterRange startChapter endChapter)) Prod.fst,
    presentTasks_keys]
  rfl

/-! ## Statistics -/

/-- The three counters grow, together, by the number of chapters of the range
that are in the index. -/
theorem processChapters_total (net : Net) (self : ImgLiex)
    (startChapter endChapter numThreads : Int) :
    (processChapters net self startChapter endChapter numThreads).self.processedCount
        + (processChapters net self startChapter endChapter numThreads).self.skippedCount
        + (processChapters net self startChapter endChapter numThreads).self.errorCount
      = self.processedCount + self.skippedCount + self.errorCount
        + (indexedInRange self.chapterLinks startChapter endChapter).length := by
  rw [processChapters_self]
  obtain ⟨os, g1, g2, g3, g4, g5, _⟩ :=
    runTasks_spec net (presentTasks self.chapterLinks (chapterRange startChapter endChapter)) self
  have hlen : os.length = (indexedInRange self.chapterLinks startChapter endChapter).length := by
    rw [← presentTasks_length, ← List.length_map os Prod.fst, g2, List.length_map]
  have := countP_kinds os
  rw [g3, g4, g5]
  omega

/-- C7: after `processChapters` the three counters have grown, together, by
the number of chapters of the range that are in the index (from zeroed
counters their sum is that number); every call of `processChapter` bumps
exactly one counter by exactly one; an iteration for a chapter that is not in
the index leaves the object, counters included, as it is; and the range
`[5, 8]` against the index `{5, 7}` gives a total of 2. -/
theorem processChapters_counts_total (net : Net) (self : ImgLiex)
    (startChapter endChapter numThreads : Int) :
    ((processChapters net self startChapter endChapter numThreads).self.processedCount
        + (processChapters net self startChapter endChapter numThreads).self.skippedCount
        + (processChapters net self startChapter endChapter numThreads).self.errorCount
      = self.processedCount + self.skippedCount + self.errorCount
        + (indexedInRange self.chapterLinks startChapter endChapter).length) ∧
    (∀ (st : ImgLiex) (n : Int) (url : Str),
      ((processChapter net st n url).processedCount = st.processedCount + 1 ∧
        (processChapter net st n url).skippedCount = st.skippedCount ∧
        (processChapter net st n url).errorCount = st.errorCount) ∨
      ((processChapter net st n url).processedCount = st.processedCount ∧
        (processChapter net st n url).skippedCount = st.skippedCount + 1 ∧
        (processChapter net st n url).errorCount = st.errorCount) ∨
      ((processChapter net st n url).processedCount = st.processedCount ∧
        (processChapter net st n url).skippedCount = st.skippedCount ∧
        (processChapter net st n url).errorCount = st.errorCount + 1)) ∧
    (∀ (s : Scheduler) (n : Int), s.self.chapterLinks n = none →
      (loopBody net numThreads s n).self = s.self ∧
      (loopBody net numThreads s n).futures = s.futures) ∧
    (indexedInRange indexFiveSeven 5 8).length = 2 := by
  refine ⟨processChapters_total net self startChapter endChapter numThreads, ?_, ?_, by decide⟩
  · intro st n url
    obtain ⟨o, _, h2, h3, h4, _⟩ := processChapter_spec net st n url
    rw [h2, h3, h4]
    cases o <;> simp [Outcome.isOk, Outcome.isSkip, Outcome.isFail]
  · intro s n h
    simp [loopBody, h]

/-! ## The dispatch trace -/

theorem launchesFrom_append (i : Nat) (xs ys : List Int) :
    launchesFrom i (xs ++ ys) = launchesFrom i xs ++ launchesFrom (i + xs.length) ys := by
  induction xs generalizing i with
  | nil => simp [launchesFrom]
  | cons x xs ih =>
    have := ih (i + 1)
    rw [show i + 1 + xs.length = i + (xs.length + 1) by omega] at this
    show SchedEvent.launch x (i + 1) :: launchesFrom (i + 1) (xs ++ ys) = _
    rw [this]
    simp [launchesFrom]

theorem batchEvents_append (bs cs : List (List Int)) :
    batchEvents (bs ++ cs) = batchEvents bs ++ batchEvents cs := by
  induction bs with
  | nil => simp [batchEvents]
  | cons b bs ih => simp [batchEvents, ih]

theorem launched_append (es fs : List SchedEvent) :
    launched (es ++ fs) = launched es ++ launched fs := by
  induction es with
  | nil => simp [launched]
  | cons e es ih => cases e <;> simp [launched, ih]

theorem launched_launchesFrom (i : Nat) (b : List Int) : launched (launchesFrom i b) = b := by
  induction b generalizing i with
  | nil => simp [launchesFrom, launched]
  | cons n ns ih => simp [launchesFrom, launched, ih]

theorem launched_batchEvents (bs : List (List Int)) : launched (batchEvents bs) = bs.flatten := by
  induction bs with
  | nil => simp [batchEvents, launched]
  | cons b bs ih =>
    simp [batchEvents, launched_append, launched_launchesFrom, launched, ih]

theorem mem_launchesFrom (i : Nat) (b : List Int) (n : Int) (size : Nat)
    (h : SchedEvent.launch n size ∈ launchesFrom i b) : i + 1 ≤ size ∧ size ≤ i + b.length := by
  induction b generalizing i with
  | nil => simp [launchesFrom] at h
  | cons m ms ih =>
    simp only [launchesFrom, List.mem_cons, SchedEvent.launch.injEq] at h
    rcases h with ⟨_, h⟩ | h
    · simp only [List.length_cons]; omega
    · have := ih (i + 1) h
      simp only [List.length_cons]; omega

theorem mem_batchEvents (bs : List (List Int)) (n : Int) (size : Nat)
    (h : SchedEvent.launch n size ∈ batchEvents bs) : ∃ b ∈ bs, 1 ≤ size ∧ size ≤ b.length := by
  induction bs with
  | nil => simp [batchEvents] at h
  | cons b bs ih =>
    simp only [batchEvents, List.mem_append, List.mem_singleton] at h
    rcases h with (h | h) | h
    · have := mem_launchesFrom 0 b n size h
      exact ⟨b, by simp, by omega, by omega⟩
    · cases h
    · obtain ⟨c, hc, h1, h2⟩ := ih h
      exact ⟨c, by simp [hc], h1, h2⟩

/-- The loop invariant of `processChapters` for a thread count `K ≥ 1`: the
trace is a sequence of full batches followed by the launches of the futures in
flight, which are fewer than `K`. -/
theorem loop_trace (net : Net) (numThreads : Int) (K : Nat) (hK : toSizeT numThreads = K)
    (idx : Int → Option Str) (l : List Int) (s : Scheduler) (finished : List (List Int))
    (hidx : s.self.chapterLinks = idx)
    (htrace : s.trace = batchEvents finished ++ launchesFrom 0 (s.futures.map Prod.fst))
    (hfull : ∀ b ∈ finished, b.length = K) (hlt : s.futures.length < K) :
    ∃ finished2 : List (List Int),
      (l.foldl (loopBody net numThreads) s).trace = batchEvents finished2 ++
        launchesFrom 0 ((l.foldl (loopBody net numThreads) s).futures.map Prod.fst) ∧
      (∀ b ∈ finished2, b.length = K) ∧
      (l.foldl (loopBody net numThreads) s).futures.length < K ∧
      finished2.flatten ++ (l.foldl (loopBody net numThreads) s).futures.map Prod.fst =
        finished.flatten ++ s.futures.map Prod.fst ++ l.filter (fun n => (idx n).isSome) := by
  induction l generalizing s finished with
  | nil => exact ⟨finished, by simpa using htrace, hfull, hlt, by simp⟩
  | cons n l ih =>
    rw [List.foldl_cons]
    have hidx2 : (loopBody net numThreads s n).self.chapterLinks = idx := by
      rw [(loopBody_pending net numThreads s n).2, hidx]
    cases hn : idx n with
    | none =>
      have hb : loopBody net numThreads s n = { s with warnings := s.warnings ++ [n] } := by
        simp [loopBody, hidx, hn]
      obtain ⟨f2, h1, h2, h3, h4⟩ := ih (loopBody net numThreads s n) finished hidx2
        (by rw [hb]; exact htrace) hfull (by rw [hb]; exact hlt)
      refine ⟨f2, h1, h2, h3, ?_⟩
      rw [h4, hb]
      simp [List.filter_cons, hn]
    | some url =>
      by_cases hcap : K ≤ s.futures.length + 1
      · have hb : loopBody net numThreads s n =
            waitAll net { s with futures := s.futures ++ [(n, url)],
                                 trace := s.trace ++ [SchedEvent.launch n (s.futures.length + 1)] } := by
          simp [loopBody, hidx, hn, hK, hcap]
        obtain ⟨f2, h1, h2, h3, h4⟩ := ih (loopBody net numThreads s n)
          (finished ++ [s.futures.map Prod.fst ++ [n]]) hidx2
          (by
            rw [hb]
            simp only [waitAll, htrace, List.map_nil, launchesFrom, List.append_nil,
              batchEvents_append, batchEvents, List.map_append, List.map_cons,
              launchesFrom_append, List.length_map, Nat.zero_add, List.append_assoc])
          (by
            intro b hb2
            rcases List.mem_append.1 hb2 with hb2 | hb2
            · exact hfull b hb2
            · simp only [List.mem_singleton] at hb2
              subst hb2
              simp only [List.length_append, List.length_map, List.length_singleton]
              omega)
          (by rw [hb]; simp only [waitAll, List.length_nil]; omega)
        refine ⟨f2, h1, h2, h3, ?_⟩
        rw [h4, hb]
        simp [waitAll, List.filter_cons, hn]
      · have hb : loopBody net numThreads s n =
            { s with futures := s.futures ++ [(n, url)],
                     trace := s.trace ++ [SchedEvent.launch n (s.futures.length + 1)] } := by
          simp [loopBody, hidx, hn, hK, hcap]
        obtain ⟨f2, h1, h2, h3, h4⟩ := ih (loopBody net numThreads s n) finished hidx2
          (by
            rw [hb]
            simp only [htrace, List.map_append, List.map_cons, List.map_nil,
              launchesFrom_append, launchesFrom, List.length_map, Nat.zero_add,
              List.append_assoc])
          hfull
          (by rw [hb]; simp only [List.length_append, List.length_singleton]; omega)
        refine ⟨f2, h1, h2, h3, ?_⟩
        rw [h4, hb]
        simp [List.filter_cons, hn]

theorem toSizeT_of_int (numThreads : Int) (h1 : 1 ≤ numThreads) (h2 : numThreads ≤ INT_MAX) :
    toSizeT numThreads = numThreads.toNat := by
  unfold toSizeT
  unfold INT_MAX at h2
  rw [Int.emod_eq_of_lt (by omega) (by omega)]

/-- The thread count `main` passes is between 1 and 8, for every hardware
concurrency that fits an `int`. -/
theorem mainNumThreads_bounds (hardwareConcurrency : Nat) (h : hardwareConcurrency < 2 ^ 31) :
    1 ≤ mainNumThreads hardwareConcurrency ∧ mainNumThreads hardwareConcurrency ≤ 8 := by
  unfold mainNumThreads
  have h1 : hardwareConcurrency % 2 ^ 32 = hardwareConcurrency := Nat.mod_eq_of_lt (by omega)
  simp only [h1, h, if_true]
  split <;> omega

/-- C10: for every thread count the loop is run with (an `int` of at least 1;
`main` passes a value between 1 and 8, see `mainNumThreads_bounds`), the trace
of the dispatch loop is a sequence of batches, each launched chapter by
chapter and then waited for as a whole before the next launch; the batches,
in order, list exactly the chapters of the range that are in the index, in
strictly increasing order (so each once); every batch but the last has
exactly `numThreads` chapters, the last has fewer; and `futures.size()` after
a launch never exceeds `numThreads`. -/
theorem processChapters_dispatch (net : Net) (self : ImgLiex)
    (startChapter endChapter numThreads : Int)
    (h1 : 1 ≤ numThreads) (h2 : numThreads ≤ INT_MAX) :
    ∃ (full : List (List Int)) (last : List Int),
      (processChapters net self startChapter endChapter numThreads).trace
        = batchEvents (full ++ [last]) ∧
      (full ++ [last]).flatten = indexedInRange self.chapterLinks startChapter endChapter ∧
      (∀ b ∈ full, (b.length : Int) = numThreads) ∧
      (last.length : Int) < numThreads ∧
      launched (processChapters net self startChapter endChapter numThreads).trace
        = indexedInRange self.chapterLinks startChapter endChapter ∧
      (indexedInRange self.chapterLinks startChapter endChapter).Pairwise (fun a b => a < b) ∧
      (∀ n size, SchedEvent.launch n size ∈
          (processChapters net self startChapter endChapter numThreads).trace →
        (size : Int) ≤ numThreads) := by
  have hK := toSizeT_of_int numThreads h1 h2
  have hcast : (numThreads.toNat : Int) = numThreads := Int.toNat_of_nonneg (by omega)
  obtain ⟨full, g1, g2, g3, g4⟩ := loop_trace net numThreads numThreads.toNat hK
    self.chapterLinks (chapterRange startChapter endChapter) ⟨self, [], [], []⟩ [] rfl
    (by simp [batchEvents, launchesFrom]) (by simp) (by simp only [List.length_nil]; omega)
  have htrace : (processChapters net self startChapter endChapter numThreads).trace =
      batchEvents (full ++ [((chapterRange startChapter endChapter).foldl
        (loopBody net numThreads) ⟨self, [], [], []⟩).futures.map Prod.fst]) := by
    unfold processChapters
    simp only [waitAll, g1, batchEvents_append, batchEvents, List.append_nil, List.append_assoc]
  have hflat : (full ++ [((chapterRange startChapter endChapter).foldl
        (loopBody net numThreads) ⟨self, [], [], []⟩).futures.map Prod.fst]).flatten =
      indexedInRange self.chapterLinks startChapter endChapter := by
    simp only [List.flatten_append, List.flatten_cons, List.flatten_nil, List.append_nil, g4]
    simp [indexedInRange]
  refine ⟨full, _, htrace, hflat, ?_, ?_, ?_, indexedInRange_pairwise _ _ _, ?_⟩
  · intro b hb
    rw [g2 b hb, hcast]
  · rw [List.length_map]
    omega
  · rw [htrace, launched_batchEvents, hflat]
  · intro n size hmem
    rw [htrace] at hmem
    obtain ⟨b, hb, _, hle⟩ := mem_batchEvents _ n size hmem
    rcases List.mem_append.1 hb with hb | hb
    · have := g2 b hb
      omega
    · simp only [List.mem_singleton] at hb
      subst hb
      rw [List.length_map] at hle
      omega

/-- Witness of C10: the chapters 1, 2 and 4 are in the index, the range is
`[1, 5]` and there are two threads. Chapters 1 and 2 fill a batch
(`futures.size()` reaches the cap 2) and are waited for before chapter 4 is
launched; chapters 3 and 5 are not dispatched. -/
theorem processChapters_dispatch_witness :
    (1 : Int) ≤ 2 ∧ (2 : Int) ≤ INT_MAX ∧
    indexedInRange loadedOneTwoFour.chapterLinks 1 5 = [1, 2, 4] ∧
    (processChapters (fun _ => none) loadedOneTwoFour 1 5 2).trace
      = [SchedEvent.launch 1 1, SchedEvent.launch 2 2, SchedEvent.drain [1, 2],
         SchedEvent.launch 4 1, SchedEvent.drain [4]] ∧
    (processChapters (fun _ => none) loadedOneTwoFour 1 5 2).warnings = [3, 5] ∧
    ∃ (full : List (List Int)) (last : List Int),
      (processChapters (fun _ => none) loadedOneTwoFour 1 5 2).trace
        = batchEvents (full ++ [last]) ∧
      (full ++ [last]).flatten = [1, 2, 4] ∧
      (∀ b ∈ full, (b.length : Int) = 2) ∧
      (last.length : Int) < 2 ∧
      launched (processChapters (fun _ => none) loadedOneTwoFour 1 5 2).trace = [1, 2, 4] ∧
      ([1, 2, 4] : List Int).Pairwise (fun a b => a < b) ∧
      (∀ n size, SchedEvent.launch n size ∈
          (processChapters (fun _ => none) loadedOneTwoFour 1 5 2).trace →
        (size : Int) ≤ 2) := by
  have hrange : indexedInRange loadedOneTwoFour.chapterLinks 1 5 = [1, 2, 4] := by decide
  have h := processChapters_dispatch (fun _ => none) loadedOneTwoFour 1 5 2
    (by decide) (by decide)
  rw [hrange] at h
  exact ⟨by decide, by decide, hrange, by decide, by decide, h⟩

/-- The place of the cap test: with the thread count 0, a value `main`
replaces by 4, the loop still launches chapter 1 before it waits, since
`futures.size()` is compared with the thread count after the `push_back`. -/
theorem processChapters_zero_threads :
    (processChapters (fun _ => none) loadedOne 1 1 0).trace
      = [SchedEvent.launch 1 1, SchedEvent.drain [1], SchedEvent.drain []] := by
  decide

/-! ## Fresh runs -/

/-- The counters after a run of tasks over distinct chapters with an empty
cache, from the outcomes of `freshOutcome`. -/
theorem runTasks_fresh_counts (net : Net) (ts : List (Int × Str)) (self : ImgLiex)
    (hnd : (ts.map Prod.fst).Nodup)
    (hc : ∀ t ∈ ts, self.expectedCountsCache t.1 = none) :
    (runTasks net self ts).processedCount = self.processedCount + ts.countP (fun t =>
      (freshOutcome net t.1 t.2 (self.files t.1) (self.writable t.1)).1.isOk) ∧
    (runTasks net self ts).skippedCount = self.skippedCount + ts.countP (fun t =>
      (freshOutcome net t.1 t.2 (self.files t.1) (self.writable t.1)).1.isSkip) ∧
    (runTasks net self ts).errorCount = self.errorCount + ts.countP (fun t =>
      (freshOutcome net t.1 t.2 (self.files t.1) (self.writable t.1)).1.isFail) := by
  obtain ⟨os, g1, _, g3, g4, g5, _⟩ := runTasks_spec net ts self
  obtain ⟨f1, _⟩ := runTasks_fresh net ts self hnd hc
  rw [g1] at f1
  have hos := List.append_cancel_left f1
  subst hos
  rw [g3, g4, g5, List.countP_map, List.countP_map, List.countP_map]
  exact ⟨rfl, rfl, rfl⟩

theorem presentTasks_nodup (idx : Int → Option Str) (startChapter endChapter : Int) :
    ((presentTasks idx (chapterRange startChapter endChapter)).map Prod.fst).Nodup := by
  rw [presentTasks_keys]
  exact indexedInRange_nodup idx startChapter endChapter

theorem mem_indexedInRange_of_task (idx : Int → Option Str) (startChapter endChapter : Int)
    (t : Int × Str) (h : t ∈ presentTasks idx (chapterRange startChapter endChapter)) :
    t.1 ∈ indexedInRange idx startChapter endChapter ∧ idx t.1 = some t.2 := by
  obtain ⟨h1, h2⟩ := (mem_presentTasks idx _ t).1 h
  exact ⟨List.mem_filter.2 ⟨h1, by simp [h2]⟩, h2⟩

theorem task_of_mem_indexedInRange (idx : Int → Option Str) (startChapter endChapter n : Int)
    (h : n ∈ indexedInRange idx startChapter endChapter) :
    ∃ url, idx n = some url ∧ (n, url) ∈ presentTasks idx (chapterRange startChapter endChapter) := by
  obtain ⟨h1, h2⟩ := List.mem_filter.1 h
  cases hu : idx n with
  | none => simp [hu] at h2
  | some url => exact ⟨url, rfl, (mem_presentTasks idx _ (n, url)).2 ⟨h1, hu⟩⟩

theorem presentTasks_without (idx : Int → Option Str) (f : Int) (l : List Int) :
    presentTasks (Function.update idx f none) l
      = (presentTasks idx l).filter (fun t => decide (t.1 ≠ f)) := by
  induction l with
  | nil => simp [presentTasks]
  | cons n l ih =>
    rw [presentTasks_cons, presentTasks_cons, List.filter_append, ih]
    congr 1
    by_cases hn : n = f
    · subst hn
      rw [Function.update_same]
      cases idx n <;> simp
    · rw [Function.update_noteq hn]
      cases idx n <;> simp [hn]

theorem freshOutcome_kinds (net : Net) (n : Int) (url : Str) (file : Option Str) (w : Bool) :
    ((freshOutcome net n url file w).1 = Outcome.fail Exn.curlError ∧ net url = none ∧
      (freshOutcome net n url file w).2 = file) ∨
    (net url ≠ none ∧ ((freshOutcome net n url file w).1.isFail = false ∨
      (freshOutcome net n url file w).1 = Outcome.fail (Exn.cannotCreateBase n))) := by
  unfold freshOutcome
  cases hn : net url with
  | none => exact Or.inl ⟨rfl, rfl, rfl⟩
  | some html =>
    refine Or.inr ⟨by simp, ?_⟩
    cases file with
    | none => cases w <;> simp [Outcome.isFail]
    | some text =>
      simp only
      split
      · simp [Outcome.isFail]
      · cases w <;> simp [Outcome.isFail]

/-- C8: in a run from a fresh object in which the fetch of exactly one chapter
of the range that is in the index fails and no chapter fails to be persisted,
`processChapters` ends with `errorCount = 1` and
`processedCount + skippedCount = N - 1`; the failing chapter gets a `[FAIL]`
outcome line from `processChapter` (a total function: nothing propagates) and
its file is unchanged; and the outcome lines and files of all other chapters
are those of the run with the failing chapter taken out of the index. -/
theorem processChapters_failure_isolation (net : Net) (self : ImgLiex)
    (startChapter endChapter numThreads f : Int) (uf : Str)
    (hcache : ∀ n, self.expectedCountsCache n = none)
    (hzero : self.processedCount = 0 ∧ self.skippedCount = 0 ∧ self.errorCount = 0)
    (hcon : self.console = [])
    (hf : f ∈ indexedInRange self.chapterLinks startChapter endChapter)
    (huf : self.chapterLinks f = some uf) (hfail : net uf = none)
    (hothers : ∀ n ∈ indexedInRange self.chapterLinks startChapter endChapter, n ≠ f →
      ∀ u, self.chapterLinks n = some u → net u ≠ none)
    (hpersist : ∀ n c, (n, Outcome.fail (Exn.cannotCreateBase c)) ∉
      (processChapters net self startChapter endChapter numThreads).self.console) :
    (processChapters net self startChapter endChapter numThreads).self.errorCount = 1 ∧
    (processChapters net self startChapter endChapter numThreads).self.processedCount
      + (processChapters net self startChapter endChapter numThreads).self.skippedCount
      = (indexedInRange self.chapterLinks startChapter endChapter).length - 1 ∧
    (f, Outcome.fail Exn.curlError) ∈
      (processChapters net self startChapter endChapter numThreads).self.console ∧
    (processChapters net self startChapter endChapter numThreads).self.files f = self.files f ∧
    (∀ n, n ≠ f →
      (processChapters net self startChapter endChapter numThreads).self.files n
        = (processChapters net (self.without f) startChapter endChapter numThreads).self.files n) ∧
    (processChapters net self startChapter endChapter numThreads).self.console.filter
        (fun line => decide (line.1 ≠ f))
      = (processChapters net (self.without f) startChapter endChapter numThreads).self.console := by
  have htotal := processChapters_total net self startChapter endChapter numThreads
  rw [processChapters_self] at hpersist htotal ⊢
  rw [processChapters_self]
  have hnd := presentTasks_nodup self.chapterLinks startChapter endChapter
  have hc : ∀ t ∈ presentTasks self.chapterLinks (chapterRange startChapter endChapter),
      self.expectedCountsCache t.1 = none := fun t _ => hcache t.1
  obtain ⟨f1, f2⟩ := runTasks_fresh net _ self hnd hc
  obtain ⟨_, _, c3⟩ := runTasks_fresh_counts net _ self hnd hc
  obtain ⟨_, _, _, _, _, _, _, _, k8, _⟩ := runTasks_spec net
    (presentTasks self.chapterLinks (chapterRange startChapter endChapter)) self
  -- the run without the failing chapter
  have hts0 : presentTasks (self.without f).chapterLinks (chapterRange startChapter endChapter)
      = (presentTasks self.chapterLinks (chapterRange startChapter endChapter)).filter
          (fun t => decide (t.1 ≠ f)) := presentTasks_without _ _ _
  have hnd0 := presentTasks_nodup (self.without f).chapterLinks startChapter endChapter
  have hc0 : ∀ t ∈ presentTasks (self.without f).chapterLinks
      (chapterRange startChapter endChapter),
      (self.without f).expectedCountsCache t.1 = none := fun t _ => hcache t.1
  obtain ⟨f01, f02⟩ := runTasks_fresh net _ (self.without f) hnd0 hc0
  obtain ⟨_, _, _, _, _, _, _, _, k08, _⟩ := runTasks_spec net
    (presentTasks (self.without f).chapterLinks (chapterRange startChapter endChapter))
    (self.without f)
  have hfiles0 : (self.without f).files = self.files := rfl
  have hwrit0 : (self.without f).writable = self.writable := rfl
  have hcon0 : (self.without f).console = self.console := rfl
  rw [hfiles0, hwrit0] at f02
  rw [hfiles0, hwrit0, hcon0, hcon, List.nil_append] at f01
  rw [hfiles0] at k08
  rw [hcon, List.nil_append] at f1
  -- the task of the failing chapter
  obtain ⟨uf2, huf2, htf⟩ := task_of_mem_indexedInRange _ _ _ f hf
  rw [huf] at huf2
  injection huf2 with huf2
  subst huf2
  have hgf : freshOutcome net f uf (self.files f) (self.writable f)
      = (Outcome.fail Exn.curlError, self.files f) := by
    simp [freshOutcome, hfail]
  -- which tasks fail
  have hfailiff : ∀ t ∈ presentTasks self.chapterLinks (chapterRange startChapter endChapter),
      (freshOutcome net t.1 t.2 (self.files t.1) (self.writable t.1)).1.isFail
        = decide (t.1 = f) := by
    intro t ht
    obtain ⟨hin, hurl⟩ := mem_indexedInRange_of_task _ _ _ t ht
    by_cases htf2 : t.1 = f
    · have : t.2 = uf := by
        rw [htf2, huf] at hurl
        injection hurl with hurl
        exact hurl.symm
      rw [htf2, this, hgf]
      simp [Outcome.isFail]
    · have hnet := hothers t.1 hin htf2 t.2 hurl
      rcases freshOutcome_kinds net t.1 t.2 (self.files t.1) (self.writable t.1) with
        ⟨_, h2, _⟩ | ⟨_, h2 | h2⟩
      · exact absurd h2 hnet
      · simp [h2, htf2]
      · exfalso
        apply hpersist t.1 t.1
        rw [f1]
        exact List.mem_map.2 ⟨t, ht, by rw [h2]⟩
  have herr : (runTasks net self (presentTasks self.chapterLinks
      (chapterRange startChapter endChapter))).errorCount = 1 := by
    rw [c3, hzero.2.2, Nat.zero_add, List.countP_congr (fun t ht => by rw [hfailiff t ht])]
    have hcount := List.count_eq_one_of_mem hnd (List.mem_map_of_mem Prod.fst htf)
    rw [List.count, List.countP_map] at hcount
    rw [← hcount]
    apply List.countP_congr
    intro t _
    simp
  refine ⟨herr, ?_, ?_, ?_, ?_, ?_⟩
  · rw [herr, hzero.1, hzero.2.1, hzero.2.2] at htotal
    omega
  · rw [f1]
    exact List.mem_map.2 ⟨(f, uf), htf, by rw [hgf]⟩
  · rw [f2 (f, uf) htf, hgf]
  · intro n hn
    by_cases hmem : n ∈ (presentTasks self.chapterLinks
        (chapterRange startChapter endChapter)).map Prod.fst
    · obtain ⟨t, ht, rfl⟩ := List.mem_map.1 hmem
      have ht0 : t ∈ presentTasks (self.without f).chapterLinks
          (chapterRange startChapter endChapter) := by
        rw [hts0]
        exact List.mem_filter.2 ⟨ht, by simpa using hn⟩
      rw [f2 t ht, f02 t ht0]
    · have hmem0 : n ∉ (presentTasks (self.without f).chapterLinks
          (chapterRange startChapter endChapter)).map Prod.fst := by
        rw [hts0]
        intro h
        obtain ⟨t, ht, e⟩ := List.mem_map.1 h
        exact hmem (List.mem_map.2 ⟨t, (List.mem_filter.1 ht).1, e⟩)
      rw [k8 n hmem, k08 n hmem0]
  · rw [f1, f01, hts0, List.filter_map]
    rfl

/-- Witness of C8: chapters 1 and 2 are in the index, the fetch of chapter 2
fails. -/
theorem processChapters_failure_isolation_witness :
    (2 : Int) ∈ indexedInRange loadedTwoChapters.chapterLinks 1 2 ∧
    netOnlyOne "http://x/2".toList = none ∧
    (processChapters netOnlyOne loadedTwoChapters 1 2 4).self.errorCount = 1 ∧
    (processChapters netOnlyOne loadedTwoChapters 1 2 4).self.processedCount
      + (processChapters netOnlyOne loadedTwoChapters 1 2 4).self.skippedCount = 1 ∧
    (processChapters netOnlyOne loadedTwoChapters 1 2 4).self.files 2 = none := by
  have hrange : indexedInRange loadedTwoChapters.chapterLinks 1 2 = [1, 2] := by decide
  have hconsole : (processChapters netOnlyOne loadedTwoChapters 1 2 4).self.console
      = [(1, Outcome.ok 3), (2, Outcome.fail Exn.curlError)] := by decide
  have h := processChapters_failure_isolation netOnlyOne loadedTwoChapters 1 2 4 2
    "http://x/2".toList (fun _ => rfl) ⟨rfl, rfl, rfl⟩ rfl (by decide) (by decide) (by decide)
    (by
      rw [hrange]
      intro n hn hne u hu
      simp only [List.mem_cons, List.mem_singleton, List.not_mem_nil, or_false] at hn
      rcases hn with rfl | rfl
      · have e : loadedTwoChapters.chapterLinks 1 = some "http://x/1".toList := by decide
        rw [e] at hu
        injection hu with hu
        subst hu
        decide
      · exact absurd rfl hne)
    (by
      intro n c
      rw [hconsole]
      simp)
  rw [hrange] at h
  exact ⟨by decide, by decide, h.1, h.2.1, h.2.2.2.1⟩

/-! ## Running twice -/

/-- C1 at a page whose image link holds a line feed: the first run processes
chapter 1 and writes a `base.txt` of two lines for its one link; the second
run, on the resulting store with the same network and fresh counters and
cache, processes chapter 1 again: `processedCount = 1` and `skippedCount = 0`,
where the claim has 0 and 1. -/
theorem processChapters_second_run_line_feed :
    extractImageLinks pageWithLineFeed = [['a', lf, 'b']] ∧
    (indexedInRange loadedOne.chapterLinks 1 1).length = 1 ∧
    (processChapters netLineFeed loadedOne 1 1 4).self.processedCount = 1 ∧
    (processChapters netLineFeed loadedOne 1 1 4).self.files 1 = some ['a', lf, 'b', lf] ∧
    (processChapters netLineFeed
      (processChapters netLineFeed loadedOne 1 1 4).self.restart 1 1 4).self.processedCount = 1 ∧
    (processChapters netLineFeed
      (processChapters netLineFeed loadedOne 1 1 4).self.restart 1 1 4).self.skippedCount = 0 ∧
    (processChapters netLineFeed
      (processChapters netLineFeed loadedOne 1 1 4).self.restart 1 1 4).self.errorCount = 0 := by
  refine ⟨by decide, by decide, by decide, by decide, by decide, by decide, by decide⟩

/-- Resuming works when no extracted link holds a line feed: after a first run
from a fresh object in which every chapter of the range that is in the index
can be fetched and written, a second run on the resulting store ends with no
chapter processed, none failed, and all of them skipped. -/
theorem processChapters_resume_without_line_feed (net : Net) (self : ImgLiex)
    (startChapter endChapter numThreads : Int)
    (hcache : ∀ n, self.expectedCountsCache n = none)
    (hfetch : ∀ n ∈ indexedInRange self.chapterLinks startChapter endChapter,
      ∀ url, self.chapterLinks n = some url →
        ∃ html, net url = some html ∧ ∀ link ∈ extractImageLinks html, lf ∉ link)
    (hw : ∀ n ∈ indexedInRange self.chapterLinks startChapter endChapter,
      self.writable n = true) :
    (processChapters net (processChapters net self startChapter endChapter numThreads).self.restart
      startChapter endChapter numThreads).self.processedCount = 0 ∧
    (processChapters net (processChapters net self startChapter endChapter numThreads).self.restart
      startChapter endChapter numThreads).self.errorCount = 0 ∧
    (processChapters net (processChapters net self startChapter endChapter numThreads).self.restart
      startChapter endChapter numThreads).self.skippedCount
      = (indexedInRange self.chapterLinks startChapter endChapter).length := by
  have hnd := presentTasks_nodup self.chapterLinks startChapter endChapter
  have hc : ∀ t ∈ presentTasks self.chapterLinks (chapterRange startChapter endChapter),
      self.expectedCountsCache t.1 = none := fun t _ => hcache t.1
  obtain ⟨_, f2⟩ := runTasks_fresh net _ self hnd hc
  obtain ⟨_, _, _, _, _, _, k6, k7, _, _⟩ := runTasks_spec net
    (presentTasks self.chapterLinks (chapterRange startChapter endChapter)) self
  rw [processChapters_self, processChapters_self]
  have hidx : (runTasks net self (presentTasks self.chapterLinks
      (chapterRange startChapter endChapter))).restart.chapterLinks = self.chapterLinks := k6
  rw [hidx]
  obtain ⟨c1, c2, c3⟩ := runTasks_fresh_counts net
    (presentTasks self.chapterLinks (chapterRange startChapter endChapter))
    (runTasks net self (presentTasks self.chapterLinks
      (chapterRange startChapter endChapter))).restart hnd (fun _ _ => rfl)
  have hskip : ∀ t ∈ presentTasks self.chapterLinks (chapterRange startChapter endChapter),
      ∃ k, (freshOutcome net t.1 t.2
        ((runTasks net self (presentTasks self.chapterLinks
          (chapterRange startChapter endChapter))).restart.files t.1)
        ((runTasks net self (presentTasks self.chapterLinks
          (chapterRange startChapter endChapter))).restart.writable t.1)).1 = Outcome.skip k := by
    intro t ht
    obtain ⟨hin, hurl⟩ := mem_indexedInRange_of_task _ _ _ t ht
    obtain ⟨html, hnet, hlf⟩ := hfetch t.1 hin t.2 hurl
    have hfile : (runTasks net self (presentTasks self.chapterLinks
        (chapterRange startChapter endChapter))).restart.files t.1
        = (freshOutcome net t.1 t.2 (self.files t.1) (self.writable t.1)).2 := f2 t ht
    have hcount : countLinesfast (some (writeLinks (extractImageLinks html)))
        = (extractImageLinks html).length := by
      simp [countLinesfast, getlines_writeLinks _ hlf]
    refine ⟨(extractImageLinks html).length, ?_⟩
    rw [hfile]
    unfold freshOutcome
    simp only [hnet, hw t.1 hin, if_true]
    cases hf : self.files t.1 with
    | none => simp [hcount]
    | some text =>
      by_cases hl : countLinesfast (some text) = (extractImageLinks html).length
      · simp [hl]
      · simp [hl, hcount]
  refine ⟨?_, ?_, ?_⟩
  · rw [c1, List.countP_eq_zero.2]
    · rfl
    · intro t ht
      obtain ⟨k, hk⟩ := hskip t ht
      simp [hk, Outcome.isOk]
  · rw [c3, List.countP_eq_zero.2]
    · rfl
    · intro t ht
      obtain ⟨k, hk⟩ := hskip t ht
      simp [hk, Outcome.isFail]
  · rw [c2, List.countP_eq_length.2, ← presentTasks_length]
    · show 0 + _ = _
      omega
    · intro t ht
      obtain ⟨k, hk⟩ := hskip t ht
      simp [hk, Outcome.isSkip]

/-! ## Fresh runs on a store that refuses writes -/

/-- The load completes when every chapter number of a marker line fits an
`int`; and a source that cannot be opened makes it return `false`. -/
theorem loadLoop_ok (ls : List Str) (m0 : Int → Option Str)
    (h : ∀ line ∈ ls, ∀ ds, markerDigits line = some ds → (digitsValue ds : Int) ≤ INT_MAX) :
    ∃ m, loadLoop ls m0 = Except.ok m := by
  induction ls, m0 using loadLoop.induct with
  | case1 m0 => exact ⟨m0, rfl⟩
  | case2 line m0 hm => exact ⟨m0, by simp [loadLoop, hm]⟩
  | case3 line m0 ds hm e he =>
    have := h line (by simp) ds hm
    simp [stoi, this] at he
  | case4 line m0 ds hm a ha => exact ⟨m0, by simp [loadLoop, hm, ha]⟩
  | case5 line url rest m0 hm ih =>
    obtain ⟨m, hm2⟩ := ih (fun l hl => h l (by simp [hl]))
    exact ⟨m, by simp [loadLoop, hm, hm2]⟩
  | case6 line url rest m0 ds hm e he =>
    have := h line (by simp) ds hm
    simp [stoi, this] at he
  | case7 line url rest m0 ds hm a ha ih =>
    obtain ⟨m, hm2⟩ := ih (fun l hl => h l (by simp [hl]))
    exact ⟨m, by simp [loadLoop, hm, ha, hm2]⟩

theorem extractChapterLinks_ok (self : ImgLiex) (text : Str)
    (h : ∀ line ∈ getlines text, ∀ ds, markerDigits line = some ds →
      (digitsValue ds : Int) ≤ INT_MAX) :
    extractChapterLinks self none = Except.ok (false, self) ∧
    ∃ links, extractChapterLinks self (some text)
      = Except.ok (true, { self with chapterLinks := links }) := by
  refine ⟨rfl, ?_⟩
  obtain ⟨m, hm⟩ := loadLoop_ok (getlines text) self.chapterLinks h
  exact ⟨m, by simp [extractChapterLinks, hm]⟩

/-! ## Tasks of distinct chapters commute -/

/-- A call of `processChapter` acts on its own chapter as `chapterStep` says:
the outcome, the file and the cache entry depend on nothing else. -/
theorem processChapter_local (net : Net) (self : ImgLiex) (n : Int) (url : Str) :
    (processChapter net self n url).console = self.console ++
      [(n, (chapterStep net n url (self.expectedCountsCache n) (self.files n)
        (self.writable n)).1)] ∧
    (processChapter net self n url).files n =
      (chapterStep net n url (self.expectedCountsCache n) (self.files n)
        (self.writable n)).2.1 ∧
    (processChapter net self n url).expectedCountsCache n =
      (chapterStep net n url (self.expectedCountsCache n) (self.files n)
        (self.writable n)).2.2 := by
  cases hc : self.expectedCountsCache n with
  | none =>
    obtain ⟨f1, f2⟩ := processChapter_fresh net self n url hc
    refine ⟨by rw [f1]; rfl, by rw [f2]; rfl, ?_⟩
    unfold processChapter processTry processTail downloadHTML saveImageLinks chapterStep
    rw [hc]
    cases hn : net url with
    | none => simp [ImgLiex.reportFail, hc]
    | some html =>
      simp only
      have hcp : ∀ k, chapterAlreadyProcessed
          { self with expectedCountsCache :=
              Function.update self.expectedCountsCache n (some (extractImageLinks html).length) }
          n k = chapterAlreadyProcessed self n k := fun k => rfl
      by_cases hp : chapterAlreadyProcessed self n (extractImageLinks html).length = true
      · simp [hcp, hp, ImgLiex.reportSkip]
      · by_cases hw : self.writable n = true
        · simp [hcp, hp, hw, ImgLiex.reportOk]
        · simp [hcp, hp, hw, ImgLiex.reportFail]
  | some k =>
    unfold processChapter processTry processTail downloadHTML saveImageLinks chapterStep
    rw [hc]
    simp only
    cases hf : self.files n with
    | none =>
      have hp : chapterAlreadyProcessed self n k = false := by
        simp [chapterAlreadyProcessed, hf]
      cases hn : net url with
      | none => simp [hp, ImgLiex.reportFail, hf, hc]
      | some html =>
        by_cases hw : self.writable n = true
        · simp [hp, hw, ImgLiex.reportOk, hc]
        · simp [hp, hw, ImgLiex.reportFail, hf, hc]
    | some text =>
      by_cases hl : countLinesfast (some text) = k
      · have hp : chapterAlreadyProcessed self n k = true := by
          simp [chapterAlreadyProcessed, hf, hl]
        simp [hp, hl, ImgLiex.reportSkip, hf, hc]
      · have hp : chapterAlreadyProcessed self n k = false := by
          simp [chapterAlreadyProcessed, hf, hl]
        cases hn : net url with
        | none => simp [hp, hl, ImgLiex.reportFail, hf, hc]
        | some html =>
          by_cases hw : self.writable n = true
          · simp [hp, hl, hw, ImgLiex.reportOk, hc]
          · simp [hp, hl, hw, ImgLiex.reportFail, hf, hc]

/-- Two calls of `processChapter` for distinct chapters give the same files,
cache, counters and outcomes in either order; only the order of the two
printed lines differs. -/
theorem processChapter_comm (net : Net) (self : ImgLiex) (a b : Int) (ua ub : Str)
    (hab : a ≠ b) :
    ∃ oa ob : Outcome,
      (processChapter net (processChapter net self a ua) b ub).console
        = self.console ++ [(a, oa), (b, ob)] ∧
      (processChapter net (processChapter net self b ub) a ua).console
        = self.console ++ [(b, ob), (a, oa)] ∧
      (processChapter net (processChapter net self a ua) b ub).files
        = (processChapter net (processChapter net self b ub) a ua).files ∧
      (processChapter net (processChapter net self a ua) b ub).expectedCountsCache
        = (processChapter net (processChapter net self b ub) a ua).expectedCountsCache ∧
      (processChapter net (processChapter net self a ua) b ub).processedCount
        = (processChapter net (processChapter net self b ub) a ua).processedCount ∧
      (processChapter net (processChapter net self a ua) b ub).skippedCount
        = (processChapter net (processChapter net self b ub) a ua).skippedCount ∧
      (processChapter net (processChapter net self a ua) b ub).errorCount
        = (processChapter net (processChapter net self b ub) a ua).errorCount := by
  obtain ⟨la1, la2, la3⟩ := processChapter_local net self a ua
  obtain ⟨lb1, lb2, lb3⟩ := processChapter_local net self b ub
  obtain ⟨oa, a1, a2, a3, a4, a5, a6, a7, a8⟩ := processChapter_spec net self a ua
  obtain ⟨ob, b1, b2, b3, b4, b5, b6, b7, b8⟩ := processChapter_spec net self b ub
  obtain ⟨lab1, lab2, lab3⟩ := processChapter_local net (processChapter net self a ua) b ub
  obtain ⟨lba1, lba2, lba3⟩ := processChapter_local net (processChapter net self b ub) a ua
  obtain ⟨oab, ab1, ab2, ab3, ab4, ab5, ab6, ab7, ab8⟩ :=
    processChapter_spec net (processChapter net self a ua) b ub
  obtain ⟨oba, ba1, ba2, ba3, ba4, ba5, ba6, ba7, ba8⟩ :=
    processChapter_spec net (processChapter net self b ub) a ua
  rw [a7 b hab.symm, a8 b hab.symm, a6] at lab1 lab2 lab3
  rw [b7 a hab, b8 a hab, b6] at lba1 lba2 lba3
  have hoa : oa = (chapterStep net a ua (self.expectedCountsCache a) (self.files a)
      (self.writable a)).1 := by
    have := a1.symm.trans la1
    simpa using this
  have hob : ob = (chapterStep net b ub (self.expectedCountsCache b) (self.files b)
      (self.writable b)).1 := by
    have := b1.symm.trans lb1
    simpa using this
  have hoab : oab = ob := by
    have := ab1.symm.trans lab1
    rw [hob]
    simpa using this
  have hoba : oba = oa := by
    have := ba1.symm.trans lba1
    rw [hoa]
    simpa using this
  subst hoab hoba
  refine ⟨oba, oab, ?_, ?_, ?_, ?_, ?_, ?_, ?_⟩
  · rw [ab1, a1]; simp
  · rw [ba1, b1]; simp
  · funext m
    by_cases hma : m = a
    · subst hma
      rw [ab7 m hab, la2, lba2]
    · by_cases hmb : m = b
      · subst hmb
        rw [lab2, ba7 m hma, lb2]
      · rw [ab7 m hmb, a7 m hma, ba7 m hma, b7 m hmb]
  · funext m
    by_cases hma : m = a
    · subst hma
      rw [ab8 m hab, la3, lba3]
    · by_cases hmb : m = b
      · subst hmb
        rw [lab3, ba8 m hma, lb3]
      · rw [ab8 m hmb, a8 m hma, ba8 m hma, b8 m hmb]
  · rw [ab2, a2, ba2, b2]; omega
  · rw [ab3, a3, ba3, b3]; omega
  · rw [ab4, a4, ba4, b4]; omega

/-! ## Sample extractions -/

/-- The extraction on sample pages: elements in the second attribute order
only are found by the second pass; with both orders present only the first
pass counts; an image without the marker class gives nothing. -/
theorem extractImageLinks_samples :
    extractImageLinks (imgTagSrcFirst "b1" ++ imgTagSrcFirst "b2") = ["b1".toList, "b2".toList] ∧
    extractImageLinks (imgTagSrcFirst "b1" ++ imgTag "a1" ++ imgTagSrcFirst "b2")
      = ["a1".toList] ∧
    extractImageLinks "<img src=x>".toList = [] := by
  refine ⟨by decide, by decide, by decide⟩

end Imgliex
